import Mathlib

/-
  Shallow embedding of src/range_repair.py (cassandra_range_repair).

  The script is Python 2: integer division is floor division, `long(s)`
  parses a decimal string, and generators are pure once the external
  command results are abstracted into an environment.  External commands
  (nodetool invocations) are modelled by an `Env`/`Oracle` that supplies
  the observable results: exit status, captured stdout lines, and the
  per-attempt outcome of each repair command.  Failure by uncaught Python
  exception (ZeroDivisionError, IndexError, ValueError) is modelled as
  `Option.none` or a dedicated error constructor, and non-termination of
  a loop is modelled by fuel exhaustion or an explicit `diverges` result.
-/

namespace RangeRepair

/-! ## lrange (lines 45-59)

  def lrange(num1, num2=None, step=1):
      op = operator.__le__
      if num2 is None: num1, num2 = 0, num1
      if num2 < num1:
          if step > 0: num1 = num2
          op = operator.__gt__
      elif step < 0:
          num1 = num2
      while op(num1, num2):
          yield num1
          num1 += step

  The two while loops (ascending with op = le, descending with op = gt)
  are rendered with an explicit fuel argument that is large enough
  whenever the Python loop terminates; `lrange` dispatches between them
  exactly as the source does and returns `none` for the parameter
  combinations under which the Python loop runs forever. -/

/-- Ascending loop of lrange: while num1 <= num2: yield num1; num1 += step. -/
def lrangeUpF : Nat → Int → Int → Int → List Int
  | 0, _, _, _ => []
  | fuelN + 1, num1, num2, step =>
    if num1 ≤ num2 then num1 :: lrangeUpF fuelN (num1 + step) num2 step else []

/-- Ascending lrange loop with sufficient fuel for any positive step. -/
def lrangeUp (num1 num2 step : Int) : List Int :=
  lrangeUpF (num2 + step - num1).toNat num1 num2 step

/-- Descending loop of lrange: while num1 > num2: yield num1; num1 += step. -/
def lrangeDownF : Nat → Int → Int → Int → List Int
  | 0, _, _, _ => []
  | fuelN + 1, num1, num2, step =>
    if num2 < num1 then num1 :: lrangeDownF fuelN (num1 + step) num2 step else []

/-- Descending lrange loop with sufficient fuel for any negative step. -/
def lrangeDown (num1 num2 step : Int) : List Int :=
  lrangeDownF (num1 - num2).toNat num1 num2 step

/-- lrange(num1, num2, step) with both arguments given.  `none` models the
  combinations on which the Python generator never terminates (step = 0 with
  the loop condition initially true, or step < 0 with num1 <= num2, where the
  source resets num1 to num2 and the le-loop then runs forever). -/
def lrange (num1 num2 step : Int) : Option (List Int) :=
  if num2 < num1 then
    -- op = gt; for step > 0 the source resets num1 := num2, so the loop
    -- condition num2 > num2 is immediately false and nothing is yielded.
    if 0 < step then some []
    else if step < 0 then some (lrangeDown num1 num2 step)
    else none
  else
    -- op = le; for step < 0 the source resets num1 := num2 and the loop
    -- condition stays true forever; likewise for step = 0.
    if step < 0 then none
    else if 0 < step then some (lrangeUp num1 num2 step)
    else none

/-! ## get_sub_range_generator (lines 137-154)

  if start+steps+1 < stop:
      step_increment = abs(stop - start) / steps
      for i in lrange(start + step_increment, stop + 1, step_increment):
          yield start, i
          start = i
      if start < stop:
          yield start, stop
  else:
      yield start, stop
-/

/-- Observable outcome of fully consuming the generator: the yielded pairs,
  a ZeroDivisionError (steps = 0 reaching the division), or divergence
  (the inner lrange loop never terminates). -/
inductive GenResult where
  | ok (pairs : List (Int × Int))
  | zeroDiv
  | diverges
deriving DecidableEq, Repr

/-- Pairs yielded by the for-loop: (start, i1), (i1, i2), ... -/
def subRangePairs (start : Int) : List Int → List (Int × Int)
  | [] => []
  | i :: is => (start, i) :: subRangePairs i is

/-- Value of the loop variable `start` after the for-loop. -/
def finalCursor (start : Int) : List Int → Int
  | [] => start
  | i :: is => finalCursor i is

/-- get_sub_range_generator(start, stop, steps), fully consumed.
  Python 2 division of longs is floor division, hence Int.fdiv. -/
def get_sub_range_generator (start stop steps : Int) : GenResult :=
  if start + steps + 1 < stop then
    if steps = 0 then GenResult.zeroDiv
    else
      let step_increment := Int.fdiv |stop - start| steps
      match lrange (start + step_increment) (stop + 1) step_increment with
      | none => GenResult.diverges
      | some is =>
        let pairs := subRangePairs start is
        let fc := finalCursor start is
        if fc < stop then GenResult.ok (pairs ++ [(fc, stop)])
        else GenResult.ok pairs
  else
    GenResult.ok [(start, stop)]

/-- Number of pairs yielded (0 for an error or divergence). -/
def numYielded (start stop steps : Int) : Nat :=
  match get_sub_range_generator start stop steps with
  | GenResult.ok pairs => pairs.length
  | _ => 0

/-! ## get_range_termination (lines 124-135)

  for i in ring:
      if token < i:
          return i
  return ring[0]
-/

/-- The for-loop scan: first ring token strictly greater than token. -/
def grtScan (token : Int) : List Int → Option Int
  | [] => none
  | i :: rest => if token < i then some i else grtScan token rest

/-- get_range_termination(token, ring); `none` models the IndexError raised
  by ring[0] on an empty ring. -/
def get_range_termination (token : Int) (ring : List Int) : Option Int :=
  match grtScan token ring with
  | some i => some i
  | none => ring.head?

/-! ## get_ring_tokens (lines 80-101)

  for line in stdout.split("\n")[6:]:
      segments = line.split()
      if (len(segments) == 8) and (segments[3] != "Joining"):
          tokens.append(long(segments[-1]))
  return True, sorted(tokens), None

  The external command result is abstracted to its success flag and the
  list of stdout lines; str.split() and long() are modelled directly. -/

/-- Python str.split() with no argument: split on whitespace runs, dropping
  empty fields.  The accumulator holds the current field reversed. -/
def wsSplitAux : List Char → List Char → List String
  | [], acc => if acc.isEmpty then [] else [String.mk acc.reverse]
  | c :: cs, acc =>
    if c.isWhitespace then
      if acc.isEmpty then wsSplitAux cs []
      else String.mk acc.reverse :: wsSplitAux cs []
    else wsSplitAux cs (c :: acc)

/-- line.split() on a single line. -/
def splitWS (s : String) : List String := wsSplitAux s.data []

/-- Digits of a decimal numeral, most significant first. -/
def digitsValAux : List Char → Nat → Option Nat
  | [], acc => some acc
  | c :: cs, acc =>
    if c.isDigit then digitsValAux cs (acc * 10 + (c.toNat - 48)) else none

/-- Python long(s) on a whitespace-free field: optional sign then decimal
  digits; `none` models the ValueError on malformed input. -/
def parseLong? (s : String) : Option Int :=
  match s.data with
  | [] => none
  | '-' :: cs =>
    match cs with
    | [] => none
    | _ => (digitsValAux cs 0).map (fun n => -(n : Int))
  | '+' :: cs =>
    match cs with
    | [] => none
    | _ => (digitsValAux cs 0).map (fun n => (n : Int))
  | cs => (digitsValAux cs 0).map (fun n => (n : Int))

/-- The token-collecting loop over the split rows: keep rows with exactly 8
  fields whose 4th field is not "Joining", parsing the last field with
  long(); `none` models an uncaught ValueError. -/
def collectTokens : List (List String) → Option (List Int)
  | [] => some []
  | segs :: rest =>
    if segs.length = 8 ∧ segs.getD 3 "" ≠ "Joining" then
      match parseLong? (segs.getLastD "") with
      | none => none
      | some t =>
        match collectTokens rest with
        | none => none
        | some ts => some (t :: ts)
    else collectTokens rest

/-- Python sorted() on integers (ascending; duplicates are kept). -/
def pysorted (l : List Int) : List Int := List.insertionSort (· ≤ ·) l

/-- get_ring_tokens: the ring command result is abstracted to its success
  flag and the stdout lines; on command failure the source returns
  (False, [], stderr), otherwise the parsed, sorted token list. -/
def get_ring_tokens (cmdOk : Bool) (stdoutLines : List String) :
    Option (Bool × List Int) :=
  if !cmdOk then some (false, [])
  else
    match collectTokens ((stdoutLines.drop 6).map splitWS) with
    | none => none
    | some toks => some (true, pysorted toks)

/-! ## get_host_tokens (lines 103-122)

  if not success or stdout.find("Token") == -1:
      return False, [], stderr
  for line in stdout.split("\n"):
      if not line.startswith("Token"): continue
      parts = line.split()
      token_list.append(long(parts[2]))
-/

/-- Prefix test on character lists (str.startswith). -/
def leadsWith : List Char → List Char → Bool
  | [], _ => true
  | _ :: _, [] => false
  | p :: ps, c :: cs => p == c && leadsWith ps cs

/-- Substring search on character lists (str.find(pat) != -1). -/
def subSearch (pattern : List Char) : List Char → Bool
  | [] => leadsWith pattern []
  | c :: cs => leadsWith pattern (c :: cs) || subSearch pattern cs

/-- line.startswith(pre). -/
def strStarts (s pre : String) : Bool := leadsWith pre.data s.data

/-- stdout.find(pat) != -1. -/
def strContains (s pat : String) : Bool := subSearch pat.data s.data

/-- The parsing loop of get_host_tokens; `none` models the IndexError on a
  Token line with fewer than 3 fields or the ValueError from long(). -/
def parseHostLines : List String → Option (List Int)
  | [] => some []
  | l :: rest =>
    if strStarts l "Token" then
      match (splitWS l)[2]? with
      | none => none
      | some p =>
        match parseLong? p with
        | none => none
        | some t =>
          match parseHostLines rest with
          | none => none
          | some ts => some (t :: ts)
    else parseHostLines rest

/-- stdout.find("Token") != -1 over the stdout lines. -/
def hasTokenMarker (lines : List String) : Bool :=
  lines.any (fun l => strContains l "Token")

/-- get_host_tokens, with the external command abstracted to its success
  flag and stdout lines. -/
def get_host_tokens (cmdOk : Bool) (stdoutLines : List String) :
    Option (Bool × List Int) :=
  if !cmdOk || !hasTokenMarker stdoutLines then some (false, [])
  else
    match parseHostLines stdoutLines with
    | none => none
    | some ts => some (true, ts)

/-! ## is_murmur_ring and token formatting (lines 68-75, 182-192) -/

/-- is_murmur_ring: scan for any negative token. -/
def is_murmur_ring : List Int → Bool
  | [] => false
  | i :: rest => if i < 0 then true else is_murmur_ring rest

/-- Zero-pad a string on the left up to the given width. -/
def padZeros (w : Nat) (s : String) : String :=
  if s.length < w then String.mk (List.replicate (w - s.length) '0') ++ s else s

/-- Python "{0:0Nd}".format(num): sign-aware zero padding to width w. -/
def pyFormatD (w : Nat) (n : Int) : String :=
  if n < 0 then "-" ++ padZeros (w - 1) (toString n.natAbs)
  else padZeros w (toString n.natAbs)

/-- format_murmur: "{0:020d}". -/
def format_murmur (n : Int) : String := pyFormatD 20 n

/-- format_md5: "{0:039d}". -/
def format_md5 (n : Int) : String := pyFormatD 39 n

/-! ## repair_range command construction (lines 61-66, 77-78, 156-173) -/

/-- Python truthiness of an optional string option (None and "" are falsy). -/
def strTruthy : Option String → Bool
  | none => false
  | some s => !(s == "")

/-- Python `a or b` for an optional string with a default. -/
def orElseStr (o : Option String) (d : String) : String :=
  match o with
  | some s => if s == "" then d else s
  | none => d

/-- get_nodetool_cmd: [NODETOOL or "nodetool"]. -/
def get_nodetool_cmd (nodetool : Option String) : List String :=
  [orElseStr nodetool "nodetool"]

/-- The command string built by repair_range and joined by run_command. -/
def repair_range_cmd (nodetool : Option String) (host : Option String)
    (keyspace : String) (columnfamily : Option String) (all_dcs : Bool)
    (startTok endTok : String) : String :=
  String.intercalate " "
    (get_nodetool_cmd nodetool
      ++ (if strTruthy host then ["-h " ++ host.getD ""] else [])
      ++ ["repair " ++ keyspace]
      ++ (if strTruthy columnfamily then [columnfamily.getD ""] else [])
      ++ (if all_dcs then [] else ["-local"])
      ++ ["-pr -st " ++ startTok ++ " -et " ++ endTok])

/-! ## The Executor: collect_results and the dispatch loop (lines 30-42, 227-272)

  Each external repair process is identified by its command string; an
  `Oracle` gives the success of the k-th attempt of a command (attempt 0 is
  the original launch, attempt k+1 the k-th retry of that CommandResult
  chain).  The observable behaviour is the list of events: `launch cmd r`
  when run_command spawns the process (r marks a CommandResult.retry), and
  `collect cmd ok` when .result() (proc.communicate) returns. -/

/-- Observable events of the executor. -/
inductive Ev where
  | launch (cmd : String) (retry : Bool)
  | collect (cmd : String) (ok : Bool)
deriving DecidableEq, Repr

/-- Outcome of the k-th attempt of each command. -/
abbrev Oracle := String → Nat → Bool

/-- Events of one round of the while-loop in collect_results: each pending
  CommandResult is collected in order, and a failed one immediately
  relaunches (retry). -/
def roundEvs (oracle : Oracle) : List (String × Nat) → List Ev
  | [] => []
  | (c, a) :: rest =>
    (if oracle c a then [Ev.collect c true]
     else [Ev.collect c false, Ev.launch c true]) ++ roundEvs oracle rest

/-- Pending list after one round of collect_results: the retries of the
  commands that failed, in order. -/
def roundPend (oracle : Oracle) : List (String × Nat) → List (String × Nat)
  | [] => []
  | (c, a) :: rest =>
    (if oracle c a then [] else [(c, a + 1)]) ++ roundPend oracle rest

/-- collect_results: rounds of collection until no retries are pending.
  The fuel bounds the number of rounds; `none` models non-termination of
  the retry-forever loop within the given fuel. -/
def collectResults (oracle : Oracle) : Nat → List (String × Nat) → Option (List Ev)
  | _, [] => some []
  | 0, _ :: _ => none
  | fuel + 1, p :: ps =>
    match collectResults oracle fuel (roundPend oracle (p :: ps)) with
    | none => none
    | some rest => some (roundEvs oracle (p :: ps) ++ rest)

/-- The dispatch loop of repair (lines 243-272): launch one process per
  sub-range command, and when `processes == repair_concurrency` drain the
  batch with collect_results before continuing; a final collect_results
  drains the remainder. -/
def dispatch (oracle : Oracle) (fuel : Nat) (conc : Int) :
    List String → List (String × Nat) → Nat → Option (List Ev)
  | [], crs, _ => collectResults oracle fuel crs
  | cmd :: rest, crs, processes =>
    if ((processes + 1 : Nat) : Int) = conc then
      match collectResults oracle fuel (crs ++ [(cmd, 0)]) with
      | none => none
      | some evs1 =>
        match dispatch oracle fuel conc rest [] 0 with
        | none => none
        | some evs2 => some (Ev.launch cmd false :: (evs1 ++ evs2))
    else
      match dispatch oracle fuel conc rest (crs ++ [(cmd, 0)]) (processes + 1) with
      | none => none
      | some evs2 => some (Ev.launch cmd false :: evs2)

/-! ### Trace accounting -/

/-- A launch puts one process in flight, a collect removes one. -/
def evDelta : Ev → Int
  | Ev.launch _ _ => 1
  | Ev.collect _ _ => -1

/-- Number of launched-but-not-yet-collected processes after a trace. -/
def inFlight (t : List Ev) : Int := (t.map evDelta).sum

/-- Dispatch-level (non-retry) launches. -/
def isDispatchLaunch : Ev → Bool
  | Ev.launch _ false => true
  | _ => false

/-- Count of dispatch-level launches in a trace. -/
def nDL (t : List Ev) : Nat := t.countP isDispatchLaunch

/-- Invariant of executor traces starting with f processes in flight after
  d dispatch-level launches: every dispatch-level launch happens exactly
  when f = d % conc, and the in-flight count never exceeds conc. -/
def TraceOk (conc : Int) : List Ev → Int → Int → Prop
  | [], _, _ => True
  | Ev.launch _ false :: rest, f, d =>
    f = d % conc ∧ f + 1 ≤ conc ∧ TraceOk conc rest (f + 1) (d + 1)
  | Ev.launch _ true :: rest, f, d => f + 1 ≤ conc ∧ TraceOk conc rest (f + 1) d
  | Ev.collect _ _ :: rest, f, d => TraceOk conc rest (f - 1) d

/-- Pending command-result entries belonging to a given command. -/
def pendFor (cmd : String) (pending : List (String × Nat)) : List (String × Nat) :=
  pending.filter (fun pr => pr.1 = cmd)

/-- Number of retry launches of a given command in a trace. -/
def nRetryOf (cmd : String) (t : List Ev) : Nat :=
  t.countP (fun e => e = Ev.launch cmd true)

/-- Number of dispatch-level launches of a given command in a trace. -/
def nDLOf (cmd : String) (t : List Ev) : Nat :=
  t.countP (fun e => e = Ev.launch cmd false)

/-! ## repair and main (lines 194-274, 276-325) -/

/-- The per-token loop body of repair: termination lookup, sub-range
  generation, command construction and dispatch, for each host token in
  order.  Each owned range contributes its own event trace; `none` models
  an uncaught exception or divergence anywhere in the loop. -/
def repairRanges (oracle : Oracle) (fuel : Nat) (conc : Int)
    (ring_tokens : List Int) (keyspace : String)
    (columnfamily host nodetool : Option String) (all_dcs : Bool)
    (start_steps : Int) : List Int → Option (List (List Ev))
  | [] => some []
  | t :: rest =>
    match get_range_termination t ring_tokens with
    | none => none
    | some term =>
      match get_sub_range_generator t term start_steps with
      | GenResult.ok pairs =>
        match dispatch oracle fuel conc
            (pairs.map (fun pr =>
              repair_range_cmd nodetool host keyspace columnfamily all_dcs
                ((if is_murmur_ring ring_tokens then format_murmur else format_md5) pr.1)
                ((if is_murmur_ring ring_tokens then format_murmur else format_md5) pr.2)))
            [] 0 with
        | none => none
        | some evs =>
          match repairRanges oracle fuel conc ring_tokens keyspace columnfamily host
              nodetool all_dcs start_steps rest with
          | none => none
          | some evss => some (evs :: evss)
      | _ => none

/-- Results of the external world: the two discovery commands and the
  outcome oracle for repair commands. -/
structure Env where
  ringCmdOk : Bool
  ringLines : List String
  hostCmdOk : Bool
  hostLines : List String
  oracle : Oracle

/-- repair (lines 194-274): ring discovery, host-token discovery, then the
  per-token dispatch loop.  Returns the success flag together with the
  event trace of each owned range; `none` models an uncaught exception or
  divergence. -/
def repair (env : Env) (keyspace : String) (columnfamily host : Option String)
    (start_steps repair_concurrency : Int) (all_dcs : Bool)
    (nodetool : Option String) (fuel : Nat) : Option (Bool × List (List Ev)) :=
  match get_ring_tokens env.ringCmdOk env.ringLines with
  | none => none
  | some (false, _) => some (false, [])
  | some (true, ring_tokens) =>
    match get_host_tokens env.hostCmdOk env.hostLines with
    | none => none
    | some (false, _) => some (false, [])
    | some (true, host_tokens) =>
      match repairRanges env.oracle fuel repair_concurrency ring_tokens keyspace
          columnfamily host nodetool all_dcs start_steps host_tokens with
      | none => none
      | some evss => some (true, evss)

/-- The CLI options consumed by main. -/
structure Options where
  keyspace : Option String
  cf : Option String
  host : Option String
  steps : Int
  nodetool : Option String
  repair_concurrency : Int
  all_dcs : Bool

/-- The repair call made by main from its parsed options. -/
def runRepair (opts : Options) (env : Env) (fuel : Nat) :
    Option (Bool × List (List Ev)) :=
  repair env (opts.keyspace.getD "") opts.cf opts.host opts.steps
    opts.repair_concurrency opts.all_dcs opts.nodetool fuel

/-- main (lines 276-325): exit 1 when the keyspace option is falsy (the
  help text is printed and sys.exit(1) runs before repair); otherwise exit
  0 when repair returns True and exit 2 when it returns False.  `none`
  models a crash or divergence inside repair. -/
def main (opts : Options) (env : Env) (fuel : Nat) : Option Int :=
  if !strTruthy opts.keyspace then some 1
  else
    match runRepair opts env fuel with
    | none => none
    | some (true, _) => some 0
    | some (false, _) => some 2

/-! ### Lemmas about the ascending lrange loop -/

theorem lrangeUpF_congr {step : Int} (hstep : 0 < step) :
    ∀ (f1 f2 : Nat) (num1 num2 : Int),
      (num2 + step - num1).toNat ≤ f1 → (num2 + step - num1).toNat ≤ f2 →
      lrangeUpF f1 num1 num2 step = lrangeUpF f2 num1 num2 step := by
  intro f1
  induction f1 with
  | zero =>
    intro f2 num1 num2 h1 h2
    have hlt : ¬ num1 ≤ num2 := by omega
    cases f2 with
    | zero => rfl
    | succ f2 => simp [lrangeUpF, hlt]
  | succ f1 ih =>
    intro f2 num1 num2 h1 h2
    cases f2 with
    | zero =>
      have hlt : ¬ num1 ≤ num2 := by omega
      simp [lrangeUpF, hlt]
    | succ f2 =>
      simp only [lrangeUpF]
      by_cases hle : num1 ≤ num2
      · rw [if_pos hle, if_pos hle, ih f2 (num1 + step) num2 (by omega) (by omega)]
      · rw [if_neg hle, if_neg hle]

theorem lrangeUpF_eq_lrangeUp {step : Int} (hstep : 0 < step) (f : Nat)
    (num1 num2 : Int) (hf : (num2 + step - num1).toNat ≤ f) :
    lrangeUpF f num1 num2 step = lrangeUp num1 num2 step :=
  lrangeUpF_congr hstep f _ num1 num2 hf (le_refl _)

theorem lrangeUp_unfold {num1 num2 step : Int} (hstep : 0 < step) :
    lrangeUp num1 num2 step =
      if num1 ≤ num2 then num1 :: lrangeUp (num1 + step) num2 step else [] := by
  unfold lrangeUp
  cases hf : (num2 + step - num1).toNat with
  | zero =>
    have hle : ¬ num1 ≤ num2 := by omega
    rw [if_neg hle]
    rfl
  | succ f =>
    simp only [lrangeUpF]
    by_cases hle : num1 ≤ num2
    · rw [if_pos hle, if_pos hle,
        lrangeUpF_eq_lrangeUp hstep f (num1 + step) num2 (by omega)]
      rfl
    · rw [if_neg hle, if_neg hle]

theorem lrangeUp_length_le {step : Int} (hstep : 0 < step) :
    ∀ (B : Nat) (num1 num2 : Int), num2 + step - num1 ≤ step * (B : Int) →
      (lrangeUp num1 num2 step).length ≤ B := by
  intro B
  induction B with
  | zero =>
    intro num1 num2 hB
    have hle : ¬ num1 ≤ num2 := by omega
    rw [lrangeUp_unfold hstep, if_neg hle]
    simp
  | succ B ih =>
    intro num1 num2 hB
    rw [lrangeUp_unfold hstep]
    by_cases hle : num1 ≤ num2
    · rw [if_pos hle]
      have hB' : num2 + step - (num1 + step) ≤ step * (B : Int) := by
        have hc : ((B : Int) + 1) = ((B + 1 : Nat) : Int) := by push_cast; ring
        have : step * ((B + 1 : Nat) : Int) = step * (B : Int) + step := by push_cast; ring
        omega
      simpa using ih (num1 + step) num2 hB'
    · rw [if_neg hle]; simp

theorem subRangePairs_length (is : List Int) :
    ∀ start : Int, (subRangePairs start is).length = is.length := by
  induction is with
  | nil => intro start; rfl
  | cons i is ih => intro start; simp [subRangePairs, ih i]

/-- In the non-degenerate branch (1 <= steps, start + steps + 1 < stop) the
  generator terminates normally and yields at most 2 * steps + 1 pairs. -/
theorem gen_main_ok {start stop steps : Int} (h2 : 1 ≤ steps)
    (hlt : start + steps + 1 < stop) :
    ∃ l, get_sub_range_generator start stop steps = GenResult.ok l ∧
      (l.length : Int) ≤ 2 * steps + 1 := by
  have hs0 : ¬ steps = 0 := by omega
  have habs : |stop - start| = stop - start := abs_of_nonneg (by omega)
  have hfd : Int.fdiv |stop - start| steps = (stop - start) / steps := by
    rw [habs]; exact Int.fdiv_eq_ediv _ (by omega)
  have hdm : steps * ((stop - start) / steps) + (stop - start) % steps = stop - start :=
    Int.ediv_add_emod (stop - start) steps
  have hr0 : 0 ≤ (stop - start) % steps := Int.emod_nonneg (stop - start) (by omega)
  have hr1 : (stop - start) % steps < steps := Int.emod_lt_of_pos (stop - start) (by omega)
  have hinc1 : 1 ≤ (stop - start) / steps := by
    rw [Int.le_ediv_iff_mul_le (by omega : (0:Int) < steps)]
    omega
  have hincle : (stop - start) / steps ≤ stop - start := Int.ediv_le_self steps (by omega)
  have hA : steps ≤ steps * ((stop - start) / steps) :=
    le_mul_of_one_le_right (by omega) hinc1
  have hlr : lrange (start + (stop - start) / steps) (stop + 1) ((stop - start) / steps) =
      some (lrangeUp (start + (stop - start) / steps) (stop + 1) ((stop - start) / steps)) := by
    unfold lrange
    rw [if_neg (by omega), if_neg (by omega), if_pos (by omega)]
  have hlen : (lrangeUp (start + (stop - start) / steps) (stop + 1)
      ((stop - start) / steps)).length ≤ (2 * steps).toNat := by
    apply lrangeUp_length_le (by omega)
    have hc : (((2 * steps).toNat : Int)) = 2 * steps := by omega
    rw [hc]
    have hmul : ((stop - start) / steps) * (2 * steps) =
        2 * (steps * ((stop - start) / steps)) := by ring
    omega
  unfold get_sub_range_generator
  rw [if_pos hlt, if_neg hs0]
  rw [hfd]
  dsimp only
  rw [hlr]
  dsimp only
  by_cases hfc : finalCursor start (lrangeUp (start + (stop - start) / steps) (stop + 1)
      ((stop - start) / steps)) < stop
  · rw [if_pos hfc]
    refine ⟨_, rfl, ?_⟩
    rw [List.length_append, subRangePairs_length]
    simp only [List.length_singleton]
    omega
  · rw [if_neg hfc]
    refine ⟨_, rfl, ?_⟩
    rw [subRangePairs_length]
    omega

/-! ### Claims about the partition algorithm -/

/-- Claim C1 (code bug): for start = 0, stop = 9, steps = 5 the generator
  yields ten pairs whose last pair is (9, 10): the covered interval
  overshoots stop = 9, so the concatenation of the yielded sub-ranges does
  not reconstruct [start, stop] exactly as the claim (and the stated
  algorithm of the spec) requires.  The cause is that lrange uses an
  inclusive upper bound (operator.__le__) while the call site passes
  stop + 1 assuming exclusive range semantics. -/
theorem C1_overshoot :
    get_sub_range_generator 0 9 5 =
      GenResult.ok [(0,1),(1,2),(2,3),(3,4),(4,5),(5,6),(6,7),(7,8),(8,9),(9,10)] ∧
    numYielded 0 9 5 = 10 := by decide

/-- Claim C2 counterexample: at start = 0, stop = 9, steps = 5 the generator
  yields 10 pairs, which exceeds steps + 1 = 6. -/
theorem C2_counterexample :
    numYielded 0 9 5 = 10 ∧ ¬ (numYielded 0 9 5 ≤ 5 + 1) := by decide

/-- Claim C2 (amended): for every start < stop and steps >= 1 the generator
  terminates normally and the total number of yielded pairs is at most
  2 * steps + 1 (the claimed bound steps + 1 fails, see the counterexample). -/
theorem C2_pair_count_bound (start stop steps : Int) (h1 : start < stop)
    (h2 : 1 ≤ steps) :
    ∃ l, get_sub_range_generator start stop steps = GenResult.ok l ∧
      (l.length : Int) ≤ 2 * steps + 1 := by
  by_cases hlt : start + steps + 1 < stop
  · exact gen_main_ok h2 hlt
  · refine ⟨[(start, stop)], ?_, by simp; omega⟩
    unfold get_sub_range_generator
    rw [if_neg hlt]

theorem C2_pair_count_bound_witness :
    ∃ l, get_sub_range_generator 0 9 5 = GenResult.ok l ∧
      (l.length : Int) ≤ 2 * 5 + 1 :=
  C2_pair_count_bound 0 9 5 (by decide) (by decide)

/-- Claim C5 (amended): there is no InvalidStepCount validation anywhere.
  With steps <= 0 the call does not uniformly fail: whenever
  start + steps + 1 >= stop the generator happily yields the single pair
  (start, stop); when start + steps + 1 < stop and steps = 0 it raises
  ZeroDivisionError at the step_increment division (and for steps < 0 it
  can either diverge or emit anomalous descending ranges). -/
theorem C5_no_validation (start stop steps : Int) (hs : steps ≤ 0) :
    (stop ≤ start + steps + 1 →
      get_sub_range_generator start stop steps = GenResult.ok [(start, stop)]) ∧
    (start + steps + 1 < stop → steps = 0 →
      get_sub_range_generator start stop steps = GenResult.zeroDiv) := by
  constructor
  · intro h
    unfold get_sub_range_generator
    rw [if_neg (by omega)]
  · intro h h0
    unfold get_sub_range_generator
    rw [if_pos h, if_pos h0]

theorem C5_no_validation_witness :
    get_sub_range_generator 5 3 (-2) = GenResult.ok [(5, 3)] :=
  (C5_no_validation 5 3 (-2) (by decide)).1 (by decide)

/-- Claim C5 counterexample: at start = 0, stop = 0, steps = 0 the call
  succeeds, yielding the single pair (0, 0) instead of failing with any
  InvalidStepCount error, refuting the claim that every call with
  steps <= 0 fails. -/
theorem C5_counterexample :
    get_sub_range_generator 0 0 0 = GenResult.ok [(0, 0)] := by decide

/-- Claim C6: whenever start < stop, steps >= 1 and stop - start <= steps + 1,
  the generator takes the degenerate branch and yields exactly the single
  pair (start, stop). -/
theorem C6_degenerate (start stop steps : Int) (h1 : start < stop)
    (h2 : 1 ≤ steps) (h3 : stop - start ≤ steps + 1) :
    get_sub_range_generator start stop steps = GenResult.ok [(start, stop)] := by
  unfold get_sub_range_generator
  rw [if_neg (by omega)]

theorem C6_degenerate_witness :
    get_sub_range_generator 0 3 5 = GenResult.ok [(0, 3)] :=
  C6_degenerate 0 3 5 (by decide) (by decide) (by decide)

/-- Claim C10: for every steps >= 1 and start >= stop the generator takes the
  degenerate branch and yields exactly (start, stop); moreover for steps >= 1
  the generator terminates normally on all integer inputs, so the operation
  is total rather than defined only for start < stop. -/
theorem C10_total_on_degenerate (start stop steps : Int) (h2 : 1 ≤ steps) :
    (stop ≤ start →
      get_sub_range_generator start stop steps = GenResult.ok [(start, stop)]) ∧
    ∃ l, get_sub_range_generator start stop steps = GenResult.ok l := by
  constructor
  · intro h
    unfold get_sub_range_generator
    rw [if_neg (by omega)]
  · by_cases hlt : start + steps + 1 < stop
    · obtain ⟨l, hl, _⟩ := gen_main_ok h2 hlt
      exact ⟨l, hl⟩
    · refine ⟨[(start, stop)], ?_⟩
      unfold get_sub_range_generator
      rw [if_neg hlt]

theorem C10_total_on_degenerate_witness :
    get_sub_range_generator 5 3 2 = GenResult.ok [(5, 3)] ∧
    ∃ l, get_sub_range_generator 5 3 2 = GenResult.ok l := by
  have h := C10_total_on_degenerate 5 3 2 (by decide)
  exact ⟨h.1 (by decide), h.2⟩

/-! ### Claims about ring topology -/

theorem grtScan_eq_none {token : Int} :
    ∀ {l : List Int}, grtScan token l = none ↔ ∀ x ∈ l, x ≤ token := by
  intro l
  induction l with
  | nil => simp [grtScan]
  | cons i rest ih =>
    rw [grtScan]
    by_cases hi : token < i
    · rw [if_pos hi]
      constructor
      · intro h
        exact absurd h (by simp)
      · intro h
        exact absurd (h i (List.mem_cons_self i rest)) (by omega)
    · rw [if_neg hi, ih]
      constructor
      · intro h x hx
        rcases List.mem_cons.mp hx with hx | hx
        · omega
        · exact h x hx
      · intro h x hx
        exact h x (List.mem_cons_of_mem _ hx)

theorem grtScan_some_spec {token : Int} :
    ∀ {l : List Int} {r : Int}, List.Pairwise (· < ·) l → grtScan token l = some r →
      r ∈ l ∧ token < r ∧ ∀ y ∈ l, token < y → r ≤ y := by
  intro l
  induction l with
  | nil => intro r _ h; simp [grtScan] at h
  | cons i rest ih =>
    intro r hp h
    have hall : ∀ y ∈ rest, i < y := fun y hy => (List.pairwise_cons.mp hp).1 y hy
    by_cases hi : token < i
    · rw [grtScan, if_pos hi, Option.some.injEq] at h
      subst h
      refine ⟨List.mem_cons_self _ _, hi, ?_⟩
      intro y hy _
      rcases List.mem_cons.mp hy with hy | hy
      · omega
      · exact le_of_lt (hall y hy)
    · rw [grtScan, if_neg hi] at h
      obtain ⟨hmem, hgt, hmin⟩ := ih (List.pairwise_cons.mp hp).2 h
      refine ⟨List.mem_cons_of_mem _ hmem, hgt, ?_⟩
      intro y hy hty
      rcases List.mem_cons.mp hy with hy | hy
      · omega
      · exact hmin y hy hty

/-- Claim C3: on a non-empty strictly ascending ring, get_range_termination
  returns the smallest ring token strictly greater than the argument token,
  and when no ring token is strictly greater it returns the first ring
  element ring[0] (wraparound; in particular a single-element ring wraps to
  itself). -/
theorem C3_range_termination (token : Int) (ring : List Int)
    (hne : ring ≠ []) (hasc : List.Chain' (· < ·) ring) :
    ∃ r, get_range_termination token ring = some r ∧
      ((∃ x ∈ ring, token < x) →
        r ∈ ring ∧ token < r ∧ ∀ y ∈ ring, token < y → r ≤ y) ∧
      ((∀ x ∈ ring, x ≤ token) → ring.head? = some r) := by
  have hp : List.Pairwise (· < ·) ring := List.chain'_iff_pairwise.mp hasc
  unfold get_range_termination
  cases hscan : grtScan token ring with
  | some i =>
    refine ⟨i, rfl, ?_, ?_⟩
    · intro _
      exact grtScan_some_spec hp hscan
    · intro hall
      obtain ⟨hmem, hgt, _⟩ := grtScan_some_spec hp hscan
      exact absurd (hall i hmem) (by omega)
  | none =>
    obtain ⟨h0, rest, hring⟩ := List.exists_cons_of_ne_nil hne
    refine ⟨h0, by rw [hring]; rfl, ?_, ?_⟩
    · intro ⟨x, hx, htx⟩
      exact absurd (grtScan_eq_none.mp hscan x hx) (by omega)
    · intro _
      rw [hring]
      rfl

theorem C3_range_termination_witness :
    (∃ r, get_range_termination 20 ([10, 20, 30] : List Int) = some r ∧
      ((∃ x ∈ ([10, 20, 30] : List Int), (20 : Int) < x) →
        r ∈ ([10, 20, 30] : List Int) ∧ (20 : Int) < r ∧
          ∀ y ∈ ([10, 20, 30] : List Int), (20 : Int) < y → r ≤ y) ∧
      ((∀ x ∈ ([10, 20, 30] : List Int), x ≤ (20 : Int)) →
        ([10, 20, 30] : List Int).head? = some r)) ∧
    get_range_termination 5 ([5] : List Int) = some 5 :=
  ⟨C3_range_termination 20 ([10, 20, 30] : List Int) (by decide)
      (by norm_num [List.chain'_cons]),
   by decide⟩

theorem collectTokens_mem :
    ∀ {rows : List (List String)} {raw : List Int},
      collectTokens rows = some raw → ∀ t ∈ raw,
        ∃ segs ∈ rows, segs.length = 8 ∧ segs.getD 3 "" ≠ "Joining" ∧
          parseLong? (segs.getLastD "") = some t := by
  intro rows
  induction rows with
  | nil =>
    intro raw h t ht
    rw [collectTokens, Option.some.injEq] at h
    subst h
    simp at ht
  | cons segs rest ih =>
    intro raw h t ht
    rw [collectTokens] at h
    by_cases hc : segs.length = 8 ∧ segs.getD 3 "" ≠ "Joining"
    · rw [if_pos hc] at h
      cases hp : parseLong? (segs.getLastD "") with
      | none => rw [hp] at h; exact absurd h (by simp)
      | some t0 =>
        rw [hp] at h
        cases hr : collectTokens rest with
        | none => rw [hr] at h; exact absurd h (by simp)
        | some ts =>
          rw [hr, Option.some.injEq] at h
          subst h
          rcases List.mem_cons.mp ht with ht | ht
          · subst ht
            exact ⟨segs, List.mem_cons_self _ _, hc.1, hc.2, hp⟩
          · obtain ⟨s, hs, hprop⟩ := ih hr t ht
            exact ⟨s, List.mem_cons_of_mem _ hs, hprop⟩
    · rw [if_neg hc] at h
      obtain ⟨s, hs, hprop⟩ := ih h t ht
      exact ⟨s, List.mem_cons_of_mem _ hs, hprop⟩

/-- Claim C4 counterexample: a ring listing in which the same token value 5
  appears on two accepted (8-field, non-Joining) rows is parsed successfully
  and produces the token list [5, 5], which is not duplicate-free. -/
theorem C4_counterexample :
    get_ring_tokens true
      ["", "", "", "", "", "", "a b c Up e f g 5", "a b c Up e f g 5"] =
      some (true, [5, 5]) ∧
    ¬ ([5, 5] : List Int).Nodup := by decide

/-- Claim C4 (amended): every accepted ring listing yields a token list that
  is sorted ascending (non-strictly) and contains only tokens parsed from
  8-field rows not flagged as Joining; it is duplicate-free whenever the
  accepted rows carry pairwise distinct token values, but duplicates are
  preserved (sorted() does not deduplicate) when the same token value
  appears on more than one accepted row. -/
theorem C4_sorted_filtered (cmdOk : Bool) (lines : List String) (toks : List Int)
    (h : get_ring_tokens cmdOk lines = some (true, toks)) :
    List.Sorted (· ≤ ·) toks ∧
    (∀ t ∈ toks, ∃ segs ∈ (lines.drop 6).map splitWS,
      segs.length = 8 ∧ segs.getD 3 "" ≠ "Joining" ∧
      parseLong? (segs.getLastD "") = some t) ∧
    (∀ raw, collectTokens ((lines.drop 6).map splitWS) = some raw →
      raw.Nodup → toks.Nodup) := by
  unfold get_ring_tokens at h
  cases cmdOk with
  | false => simp at h
  | true =>
    cases hcol : collectTokens ((lines.drop 6).map splitWS) with
    | none =>
      rw [hcol] at h
      simp at h
    | some raw =>
      rw [hcol] at h
      simp only [Bool.not_true, Bool.false_eq_true, if_false,
        Option.some.injEq, Prod.mk.injEq, true_and] at h
      have htoks : toks = pysorted raw := h.symm
      subst htoks
      refine ⟨List.sorted_insertionSort _ raw, ?_, ?_⟩
      · intro t ht
        have hmem : t ∈ raw := (List.perm_insertionSort _ raw).mem_iff.mp ht
        exact collectTokens_mem hcol t hmem
      · intro raw' hraw' hnd
        have hrr : raw = raw' := by injection hraw'
        subst hrr
        exact ((List.perm_insertionSort _ raw).symm).nodup hnd

theorem C4_sorted_filtered_witness :
    List.Sorted (· ≤ ·) ([5, 7] : List Int) ∧
    (∀ t ∈ ([5, 7] : List Int), ∃ segs ∈
        ((["", "", "", "", "", "", "a b c Up e f g 7", "a b c Up e f g 5"].drop 6).map splitWS),
      segs.length = 8 ∧ segs.getD 3 "" ≠ "Joining" ∧
      parseLong? (segs.getLastD "") = some t) ∧
    (∀ raw, collectTokens
        ((["", "", "", "", "", "", "a b c Up e f g 7", "a b c Up e f g 5"].drop 6).map splitWS) =
        some raw → raw.Nodup → ([5, 7] : List Int).Nodup) :=
  C4_sorted_filtered true
    ["", "", "", "", "", "", "a b c Up e f g 7", "a b c Up e f g 5"]
    [5, 7] (by decide)

/-! ### Trace accounting lemmas -/

theorem inFlight_nil : inFlight [] = 0 := rfl

theorem inFlight_cons (e : Ev) (t : List Ev) :
    inFlight (e :: t) = evDelta e + inFlight t := by
  simp [inFlight]

theorem inFlight_append (t1 t2 : List Ev) :
    inFlight (t1 ++ t2) = inFlight t1 + inFlight t2 := by
  simp [inFlight]

theorem TraceOk_nil {conc f d : Int} : TraceOk conc [] f d := trivial

theorem TraceOk_launchF {conc f d : Int} {c : String} {rest : List Ev} :
    TraceOk conc (Ev.launch c false :: rest) f d ↔
      f = d % conc ∧ f + 1 ≤ conc ∧ TraceOk conc rest (f + 1) (d + 1) := Iff.rfl

theorem TraceOk_launchT {conc f d : Int} {c : String} {rest : List Ev} :
    TraceOk conc (Ev.launch c true :: rest) f d ↔
      f + 1 ≤ conc ∧ TraceOk conc rest (f + 1) d := Iff.rfl

theorem TraceOk_collect {conc f d : Int} {c : String} {ok : Bool} {rest : List Ev} :
    TraceOk conc (Ev.collect c ok :: rest) f d ↔ TraceOk conc rest (f - 1) d := Iff.rfl

theorem TraceOk_append {conc : Int} :
    ∀ {t1 t2 : List Ev} {f d : Int}, TraceOk conc t1 f d →
      TraceOk conc t2 (f + inFlight t1) (d + (nDL t1 : Int)) →
      TraceOk conc (t1 ++ t2) f d := by
  intro t1
  induction t1 with
  | nil =>
    intro t2 f d _ h2
    simpa [inFlight_nil, nDL] using h2
  | cons e t1 ih =>
    intro t2 f d h1 h2
    rcases e with ⟨c, r⟩ | ⟨c, o⟩
    · cases r
      · rw [TraceOk_launchF] at h1
        rw [List.cons_append, TraceOk_launchF]
        refine ⟨h1.1, h1.2.1, ih h1.2.2 ?_⟩
        have hf : f + 1 + inFlight t1 = f + inFlight (Ev.launch c false :: t1) := by
          rw [inFlight_cons]; simp [evDelta]; ring
        have hd : d + 1 + (nDL t1 : Int) = d + (nDL (Ev.launch c false :: t1) : Int) := by
          simp [nDL, List.countP_cons, isDispatchLaunch]
          ring
        rw [hf, hd]
        exact h2
      · rw [TraceOk_launchT] at h1
        rw [List.cons_append, TraceOk_launchT]
        refine ⟨h1.1, ih h1.2 ?_⟩
        have hf : f + 1 + inFlight t1 = f + inFlight (Ev.launch c true :: t1) := by
          rw [inFlight_cons]; simp [evDelta]; ring
        have hd : d + (nDL t1 : Int) = d + (nDL (Ev.launch c true :: t1) : Int) := by
          simp [nDL, List.countP_cons, isDispatchLaunch]
        rw [hf, hd]
        exact h2
    · rw [TraceOk_collect] at h1
      rw [List.cons_append, TraceOk_collect]
      refine ih h1 ?_
      have hf : f - 1 + inFlight t1 = f + inFlight (Ev.collect c o :: t1) := by
        rw [inFlight_cons]; simp [evDelta]; ring
      have hd : d + (nDL t1 : Int) = d + (nDL (Ev.collect c o :: t1) : Int) := by
        simp [nDL, List.countP_cons, isDispatchLaunch]
      rw [hf, hd]
      exact h2

/-! ### Round and collect_results invariants -/

theorem roundEvs_cons (oracle : Oracle) (c : String) (a : Nat)
    (rest : List (String × Nat)) :
    roundEvs oracle ((c, a) :: rest) =
      (if oracle c a then [Ev.collect c true]
       else [Ev.collect c false, Ev.launch c true]) ++ roundEvs oracle rest := rfl

theorem roundPend_cons (oracle : Oracle) (c : String) (a : Nat)
    (rest : List (String × Nat)) :
    roundPend oracle ((c, a) :: rest) =
      (if oracle c a then [] else [(c, a + 1)]) ++ roundPend oracle rest := rfl

theorem roundEvs_nDL (oracle : Oracle) :
    ∀ pending : List (String × Nat), nDL (roundEvs oracle pending) = 0 := by
  intro pending
  induction pending with
  | nil => rfl
  | cons p rest ih =>
    obtain ⟨c, a⟩ := p
    rw [roundEvs_cons]
    by_cases h : oracle c a <;>
      simp [h, nDL, List.countP_cons, List.countP_append, isDispatchLaunch] <;>
      simpa [nDL] using ih

theorem roundPend_length_le (oracle : Oracle) :
    ∀ pending : List (String × Nat),
      (roundPend oracle pending).length ≤ pending.length := by
  intro pending
  induction pending with
  | nil => simp [roundPend]
  | cons p rest ih =>
    obtain ⟨c, a⟩ := p
    rw [roundPend_cons]
    by_cases h : oracle c a <;> simp [h] <;> omega

theorem roundEvs_inFlight (oracle : Oracle) :
    ∀ pending : List (String × Nat),
      inFlight (roundEvs oracle pending) =
        ((roundPend oracle pending).length : Int) - (pending.length : Int) := by
  intro pending
  induction pending with
  | nil => simp [roundEvs, roundPend, inFlight_nil]
  | cons p rest ih =>
    obtain ⟨c, a⟩ := p
    rw [roundEvs_cons, roundPend_cons, inFlight_append, ih]
    by_cases h : oracle c a
    · rw [if_pos h, if_pos h, List.nil_append]
      have h1 : inFlight [Ev.collect c true] = -1 := rfl
      rw [h1]
      simp only [List.length_cons]
      push_cast
      ring
    · rw [if_neg h, if_neg h]
      have h1 : inFlight [Ev.collect c false, Ev.launch c true] = 0 := rfl
      rw [h1]
      simp only [List.singleton_append, List.length_cons]
      push_cast
      ring

theorem roundEvs_TraceOk {conc : Int} (oracle : Oracle) :
    ∀ (pending : List (String × Nat)) (f d : Int), f ≤ conc →
      TraceOk conc (roundEvs oracle pending) f d := by
  intro pending
  induction pending with
  | nil => intro f d _; exact TraceOk_nil
  | cons p rest ih =>
    intro f d hf
    obtain ⟨c, a⟩ := p
    rw [roundEvs_cons]
    by_cases h : oracle c a
    · rw [if_pos h, List.singleton_append, TraceOk_collect]
      exact ih (f - 1) d (by omega)
    · rw [if_neg h, List.cons_append, List.cons_append, List.nil_append,
        TraceOk_collect, TraceOk_launchT]
      exact ⟨by omega, ih (f - 1 + 1) d (by omega)⟩

theorem collectResults_nil (oracle : Oracle) (fuel : Nat) :
    collectResults oracle fuel [] = some [] := by
  cases fuel <;> rfl

theorem collectResults_cons (oracle : Oracle) (fuel : Nat)
    (p : String × Nat) (ps : List (String × Nat)) :
    collectResults oracle (fuel + 1) (p :: ps) =
      match collectResults oracle fuel (roundPend oracle (p :: ps)) with
      | none => none
      | some rest => some (roundEvs oracle (p :: ps) ++ rest) := rfl

/-- Combined invariant of collect_results traces: no dispatch-level
  launches, the whole pending batch ends up collected, and the TraceOk
  invariant holds from any start state within the concurrency bound. -/
theorem collectResults_spec {conc : Int} (oracle : Oracle) :
    ∀ (fuel : Nat) (pending : List (String × Nat)) (evs : List Ev),
      collectResults oracle fuel pending = some evs →
      nDL evs = 0 ∧ inFlight evs = -(pending.length : Int) ∧
        (∀ f d : Int, f ≤ conc → TraceOk conc evs f d) := by
  intro fuel
  induction fuel with
  | zero =>
    intro pending evs h
    cases pending with
    | nil =>
      rw [collectResults_nil, Option.some.injEq] at h
      subst h
      exact ⟨rfl, by simp [inFlight_nil], fun f d _ => TraceOk_nil⟩
    | cons p ps => exact absurd h (by simp [collectResults])
  | succ fuel ih =>
    intro pending evs h
    cases pending with
    | nil =>
      rw [collectResults_nil, Option.some.injEq] at h
      subst h
      exact ⟨rfl, by simp [inFlight_nil], fun f d _ => TraceOk_nil⟩
    | cons p ps =>
      rw [collectResults_cons] at h
      cases hrec : collectResults oracle fuel (roundPend oracle (p :: ps)) with
      | none => rw [hrec] at h; exact absurd h (by simp)
      | some rest =>
        rw [hrec, Option.some.injEq] at h
        subst h
        obtain ⟨hn, hi, ht⟩ := ih _ _ hrec
        refine ⟨?_, ?_, ?_⟩
        · simp [nDL, List.countP_append] at hn ⊢
          simp [nDL] at *
          constructor
          · simpa [nDL] using roundEvs_nDL oracle (p :: ps)
          · exact hn
        · rw [inFlight_append, roundEvs_inFlight, hi]
          ring
        · intro f d hf
          apply TraceOk_append (roundEvs_TraceOk oracle (p :: ps) f d hf)
          have hnd : (nDL (roundEvs oracle (p :: ps)) : Int) = 0 := by
            rw [roundEvs_nDL]; rfl
          rw [roundEvs_inFlight, hnd]
          apply ht
          have := roundPend_length_le oracle (p :: ps)
          omega

/-! ### The dispatch loop invariant -/

theorem dispatch_nil (oracle : Oracle) (fuel : Nat) (conc : Int)
    (crs : List (String × Nat)) (p : Nat) :
    dispatch oracle fuel conc [] crs p = collectResults oracle fuel crs := rfl

theorem dispatch_cons (oracle : Oracle) (fuel : Nat) (conc : Int) (cmd : String)
    (rest : List String) (crs : List (String × Nat)) (p : Nat) :
    dispatch oracle fuel conc (cmd :: rest) crs p =
      if ((p + 1 : Nat) : Int) = conc then
        match collectResults oracle fuel (crs ++ [(cmd, 0)]) with
        | none => none
        | some evs1 =>
          match dispatch oracle fuel conc rest [] 0 with
          | none => none
          | some evs2 => some (Ev.launch cmd false :: (evs1 ++ evs2))
      else
        match dispatch oracle fuel conc rest (crs ++ [(cmd, 0)]) (p + 1) with
        | none => none
        | some evs2 => some (Ev.launch cmd false :: evs2) := rfl

theorem nDL_cons (e : Ev) (t : List Ev) :
    nDL (e :: t) = nDL t + (if isDispatchLaunch e then 1 else 0) := by
  simp [nDL, List.countP_cons]

/-- Main invariant of the dispatch loop: starting a dispatch continuation
  with p = crs.length processes in flight, p < conc, and p = d % conc
  dispatch-level launches so far, the produced trace satisfies TraceOk and
  finally collects everything in flight. -/
theorem dispatch_spec (oracle : Oracle) {conc : Int} (hc : 1 ≤ conc) :
    ∀ (cmds : List String) (fuel : Nat) (crs : List (String × Nat)) (p : Nat)
      (d : Int) (evs : List Ev),
      dispatch oracle fuel conc cmds crs p = some evs →
      p = crs.length → (p : Int) < conc → 0 ≤ d → (p : Int) = d % conc →
      TraceOk conc evs (p : Int) d ∧ inFlight evs = -(p : Int) := by
  intro cmds
  induction cmds with
  | nil =>
    intro fuel crs p d evs h hp hpc hd hpd
    rw [dispatch_nil] at h
    obtain ⟨hn, hi, ht⟩ := @collectResults_spec conc oracle fuel crs evs h
    exact ⟨ht _ d (by omega), by omega⟩
  | cons cmd rest ih =>
    intro fuel crs p d evs h hp hpc hd hpd
    rw [dispatch_cons] at h
    have hdm := Int.ediv_add_emod d conc
    by_cases hfull : ((p + 1 : Nat) : Int) = conc
    · rw [if_pos hfull] at h
      push_cast at hfull
      cases h1 : collectResults oracle fuel (crs ++ [(cmd, 0)]) with
      | none => rw [h1] at h; exact absurd h (by simp)
      | some evs1 =>
        rw [h1] at h
        cases h2 : dispatch oracle fuel conc rest [] 0 with
        | none => rw [h2] at h; exact absurd h (by simp)
        | some evs2 =>
          rw [h2, Option.some.injEq] at h
          subst h
          obtain ⟨hn1, hi1, ht1⟩ := @collectResults_spec conc oracle fuel _ evs1 h1
          have hd1 : (0 : Int) = (d + 1) % conc := by
            have hstep : d + 1 = conc * (d / conc + 1) := by
              rw [mul_add, mul_one]
              omega
            rw [hstep, Int.mul_emod_right]
          obtain ⟨ht2, hi2⟩ := ih fuel [] 0 (d + 1) evs2 h2 rfl (by omega) (by omega)
            (by simpa using hd1)
          have hlen1 : ((crs ++ [(cmd, 0)]).length : Int) = (p : Int) + 1 := by
            rw [List.length_append, hp]
            push_cast [List.length_singleton]
            ring
          constructor
          · rw [TraceOk_launchF]
            refine ⟨hpd, by omega, ?_⟩
            apply TraceOk_append (ht1 ((p : Int) + 1) (d + 1) (by omega))
            rw [hi1, hlen1, hn1]
            have he1 : (p : Int) + 1 + -((p : Int) + 1) = 0 := by ring
            have he2 : d + 1 + ((0 : Nat) : Int) = d + 1 := by push_cast; ring
            rw [he1, he2]
            simpa using ht2
          · rw [inFlight_cons, inFlight_append, hi1, hlen1]
            simp only [evDelta]
            push_cast at hi2
            omega
    · rw [if_neg hfull] at h
      push_cast at hfull
      cases h2 : dispatch oracle fuel conc rest (crs ++ [(cmd, 0)]) (p + 1) with
      | none => rw [h2] at h; exact absurd h (by simp)
      | some evs2 =>
        rw [h2, Option.some.injEq] at h
        subst h
        have hplen : p + 1 = (crs ++ [(cmd, 0)]).length := by
          rw [List.length_append, hp]
          simp
        have hpd1 : ((p + 1 : Nat) : Int) = (d + 1) % conc := by
          have hstep : d + 1 = ((p : Int) + 1) + conc * (d / conc) := by omega
          rw [hstep, Int.add_mul_emod_self_left,
            Int.emod_eq_of_lt (by omega) (by omega)]
          push_cast
          ring
        obtain ⟨ht2, hi2⟩ := ih fuel (crs ++ [(cmd, 0)]) (p + 1) (d + 1) evs2 h2
          hplen (by push_cast; omega) (by omega) hpd1
        push_cast at ht2 hi2
        constructor
        · rw [TraceOk_launchF]
          exact ⟨hpd, by omega, ht2⟩
        · rw [inFlight_cons]
          simp only [evDelta]
          omega

/-- Prefix bound: from TraceOk with f <= conc, every prefix of the trace
  keeps the in-flight count at or below conc. -/
theorem TraceOk_bound {conc : Int} :
    ∀ (pre : List Ev) {t : List Ev} {f d : Int}, TraceOk conc t f d → f ≤ conc →
      (∃ suf, t = pre ++ suf) → f + inFlight pre ≤ conc := by
  intro pre
  induction pre with
  | nil =>
    intro t f d _ hf _
    simpa [inFlight_nil] using hf
  | cons e pre ih =>
    intro t f d ht hf hsuf
    obtain ⟨suf, hs⟩ := hsuf
    subst hs
    rw [List.cons_append] at ht
    rw [inFlight_cons]
    rcases e with ⟨c, r⟩ | ⟨c, o⟩
    · cases r
      · rw [TraceOk_launchF] at ht
        have hrec := ih ht.2.2 ht.2.1 ⟨suf, rfl⟩
        simp only [evDelta]
        omega
      · rw [TraceOk_launchT] at ht
        have hrec := ih ht.2 ht.1 ⟨suf, rfl⟩
        simp only [evDelta]
        omega
    · rw [TraceOk_collect] at ht
      have hrec := ih ht (by omega) ⟨suf, rfl⟩
      simp only [evDelta]
      omega

/-- Batch barrier: from TraceOk, at every dispatch-level launch the
  in-flight count equals the number of previous dispatch-level launches
  modulo the concurrency. -/
theorem TraceOk_barrier {conc : Int} :
    ∀ (pre : List Ev) {t : List Ev} {f d : Int} {cmd : String} {suf : List Ev},
      TraceOk conc t f d → t = pre ++ Ev.launch cmd false :: suf →
      f + inFlight pre = (d + (nDL pre : Int)) % conc := by
  intro pre
  induction pre with
  | nil =>
    intro t f d cmd suf ht hs
    subst hs
    rw [List.nil_append, TraceOk_launchF] at ht
    simpa [inFlight_nil, nDL] using ht.1
  | cons e pre ih =>
    intro t f d cmd suf ht hs
    subst hs
    rw [List.cons_append] at ht
    rw [inFlight_cons, nDL_cons]
    rcases e with ⟨c, r⟩ | ⟨c, o⟩
    · cases r
      · rw [TraceOk_launchF] at ht
        have hrec := ih ht.2.2 rfl
        simp only [evDelta, isDispatchLaunch, if_pos]
        push_cast
        rw [show d + ((nDL pre : Int) + 1) = d + 1 + (nDL pre : Int) from by ring]
        omega
      · rw [TraceOk_launchT] at ht
        have hrec := ih ht.2 rfl
        simp only [evDelta, isDispatchLaunch]
        push_cast
        simp only [add_zero]
        omega
    · rw [TraceOk_collect] at ht
      have hrec := ih ht rfl
      simp only [evDelta, isDispatchLaunch]
      push_cast
      simp only [add_zero]
      omega

/-! ### From repair back to dispatch traces -/

theorem repairRanges_nil (oracle : Oracle) (fuel : Nat) (conc : Int)
    (rt : List Int) (ks : String) (cf host nt : Option String) (dcs : Bool)
    (ss : Int) :
    repairRanges oracle fuel conc rt ks cf host nt dcs ss [] = some [] := rfl

theorem repairRanges_cons (oracle : Oracle) (fuel : Nat) (conc : Int)
    (rt : List Int) (ks : String) (cf host nt : Option String) (dcs : Bool)
    (ss : Int) (t : Int) (rest : List Int) :
    repairRanges oracle fuel conc rt ks cf host nt dcs ss (t :: rest) =
      match get_range_termination t rt with
      | none => none
      | some term =>
        match get_sub_range_generator t term ss with
        | GenResult.ok pairs =>
          match dispatch oracle fuel conc
              (pairs.map (fun pr =>
                repair_range_cmd nt host ks cf dcs
                  ((if is_murmur_ring rt then format_murmur else format_md5) pr.1)
                  ((if is_murmur_ring rt then format_murmur else format_md5) pr.2)))
              [] 0 with
          | none => none
          | some evs =>
            match repairRanges oracle fuel conc rt ks cf host nt dcs ss rest with
            | none => none
            | some evss => some (evs :: evss)
        | _ => none := rfl

theorem repairRanges_traces (oracle : Oracle) (fuel : Nat) (conc : Int)
    (rt : List Int) (ks : String) (cf host nt : Option String) (dcs : Bool)
    (ss : Int) :
    ∀ (tokens : List Int) (evss : List (List Ev)),
      repairRanges oracle fuel conc rt ks cf host nt dcs ss tokens = some evss →
      ∀ tr ∈ evss, ∃ cmds, dispatch oracle fuel conc cmds [] 0 = some tr := by
  intro tokens
  induction tokens with
  | nil =>
    intro evss h tr htr
    rw [repairRanges_nil, Option.some.injEq] at h
    subst h
    simp at htr
  | cons t rest ih =>
    intro evss h tr htr
    rw [repairRanges_cons] at h
    split at h
    · exact absurd h (by simp)
    · rename_i term hterm
      split at h
      · rename_i pairs hgen
        split at h
        · exact absurd h (by simp)
        · rename_i evs hdis
          split at h
          · exact absurd h (by simp)
          · rename_i evss2 hrec
            rw [Option.some.injEq] at h
            subst h
            rcases List.mem_cons.mp htr with rfl | htr2
            · exact ⟨_, hdis⟩
            · exact ih evss2 hrec tr htr2
      · exact absurd h (by simp)

theorem repair_traces (env : Env) (ks : String) (cf host nt : Option String)
    (steps conc : Int) (dcs : Bool) (fuel : Nat) (b : Bool)
    (evss : List (List Ev))
    (h : repair env ks cf host steps conc dcs nt fuel = some (b, evss)) :
    ∀ tr ∈ evss, ∃ cmds, dispatch env.oracle fuel conc cmds [] 0 = some tr := by
  intro tr htr
  unfold repair at h
  split at h
  · exact absurd h (by simp)
  · simp only [Option.some.injEq, Prod.mk.injEq] at h
    obtain ⟨hb, he⟩ := h
    subst he
    simp at htr
  · rename_i ring_tokens hring
    split at h
    · exact absurd h (by simp)
    · simp only [Option.some.injEq, Prod.mk.injEq] at h
      obtain ⟨hb, he⟩ := h
      subst he
      simp at htr
    · rename_i host_tokens hhost
      split at h
      · exact absurd h (by simp)
      · rename_i evss2 hrr
        simp only [Option.some.injEq, Prod.mk.injEq] at h
        obtain ⟨hb, he⟩ := h
        subst he
        exact repairRanges_traces env.oracle fuel conc ring_tokens ks cf host nt
          dcs steps host_tokens evss2 hrr tr htr

theorem traces_balanced_take :
    ∀ (evss : List (List Ev)), (∀ tr ∈ evss, inFlight tr = 0) →
      ∀ k : Nat, inFlight (List.flatten (List.take k evss)) = 0 := by
  intro evss
  induction evss with
  | nil =>
    intro _ k
    cases k <;> simp [inFlight_nil]
  | cons a l ih =>
    intro h k
    cases k with
    | zero => simp [inFlight_nil]
    | succ k =>
      rw [List.take_succ_cons, List.flatten_cons, inFlight_append,
        h a (List.mem_cons_self a l),
        ih (fun tr ht => h tr (List.mem_cons_of_mem a ht)) k]
      ring

/-- Claim C9: with a positive concurrency bound, every dispatch trace keeps
  at most conc operations launched-but-not-collected at every prefix; a
  dispatch-level launch of a new sub-range happens only when the in-flight
  count equals the number of previous dispatch-level launches modulo conc
  (batch barrier: in particular the (conc+1)-th sub-range launches only
  when the whole previous batch has been collected); the trace ends fully
  drained; and across repair, the owned ranges are processed one after the
  other with nothing in flight at every range boundary. -/
theorem C9_bounded_concurrency (oracle : Oracle) (fuel : Nat) (conc : Int)
    (cmds : List String) (trace : List Ev) (hc : 1 ≤ conc)
    (hd : dispatch oracle fuel conc cmds [] 0 = some trace) :
    (∀ pre suf, trace = pre ++ suf → inFlight pre ≤ conc) ∧
    (∀ pre cmd suf, trace = pre ++ Ev.launch cmd false :: suf →
      inFlight pre = (nDL pre : Int) % conc) ∧
    inFlight trace = 0 ∧
    (∀ (env : Env) (ks : String) (cf host nodetool : Option String)
      (steps : Int) (dcs : Bool) (fuel2 : Nat) (b : Bool)
      (evss : List (List Ev)),
      repair env ks cf host steps conc dcs nodetool fuel2 = some (b, evss) →
      ∀ k : Nat, inFlight (List.flatten (List.take k evss)) = 0) := by
  obtain ⟨ht, hi⟩ := dispatch_spec oracle hc cmds fuel [] 0 0 trace hd rfl
    (by omega) (by omega) (by simp [Int.zero_emod])
  refine ⟨?_, ?_, by simpa using hi, ?_⟩
  · intro pre suf hps
    have hb := TraceOk_bound pre ht (by omega) ⟨suf, hps⟩
    push_cast at hb
    omega
  · intro pre cmd suf hps
    have hb := TraceOk_barrier pre ht hps
    push_cast at hb
    simpa using hb
  · intro env ks cf host nodetool steps dcs fuel2 b evss h k
    apply traces_balanced_take
    intro tr htr
    obtain ⟨cmds2, hd2⟩ := repair_traces env ks cf host nodetool steps conc dcs
      fuel2 b evss h tr htr
    have := (dispatch_spec env.oracle hc cmds2 fuel2 [] 0 0 tr hd2 rfl
      (by omega) (by omega) (by simp [Int.zero_emod])).2
    simpa using this

theorem C9_bounded_concurrency_witness :
    (∀ pre suf,
      ([Ev.launch "a" false, Ev.launch "b" false, Ev.collect "a" true,
        Ev.collect "b" true, Ev.launch "c" false, Ev.collect "c" true]) =
        pre ++ suf → inFlight pre ≤ 2) ∧
    (∀ pre cmd suf,
      ([Ev.launch "a" false, Ev.launch "b" false, Ev.collect "a" true,
        Ev.collect "b" true, Ev.launch "c" false, Ev.collect "c" true]) =
        pre ++ Ev.launch cmd false :: suf →
      inFlight pre = (nDL pre : Int) % 2) ∧
    inFlight
      ([Ev.launch "a" false, Ev.launch "b" false, Ev.collect "a" true,
        Ev.collect "b" true, Ev.launch "c" false, Ev.collect "c" true]) = 0 ∧
    (∀ (env : Env) (ks : String) (cf host nodetool : Option String)
      (steps : Int) (dcs : Bool) (fuel2 : Nat) (b : Bool)
      (evss : List (List Ev)),
      repair env ks cf host steps 2 dcs nodetool fuel2 = some (b, evss) →
      ∀ k : Nat, inFlight (List.flatten (List.take k evss)) = 0) :=
  C9_bounded_concurrency (fun _ _ => true) 1 2 ["a", "b", "c"]
    [Ev.launch "a" false, Ev.launch "b" false, Ev.collect "a" true,
      Ev.collect "b" true, Ev.launch "c" false, Ev.collect "c" true]
    (by decide) (by rfl)

/-! ### Per-command retry accounting -/

theorem pendFor_nil (cmd : String) : pendFor cmd [] = [] := rfl

theorem pendFor_cons (cmd : String) (c : String) (a : Nat)
    (rest : List (String × Nat)) :
    pendFor cmd ((c, a) :: rest) =
      (if c = cmd then [(c, a)] else []) ++ pendFor cmd rest := by
  by_cases h : c = cmd <;> simp [pendFor, List.filter_cons, h]

theorem pendFor_append (cmd : String) (l1 l2 : List (String × Nat)) :
    pendFor cmd (l1 ++ l2) = pendFor cmd l1 ++ pendFor cmd l2 := by
  simp [pendFor, List.filter_append]

theorem nRetryOf_append (cmd : String) (t1 t2 : List Ev) :
    nRetryOf cmd (t1 ++ t2) = nRetryOf cmd t1 + nRetryOf cmd t2 := by
  simp [nRetryOf, List.countP_append]

theorem nDLOf_append (cmd : String) (t1 t2 : List Ev) :
    nDLOf cmd (t1 ++ t2) = nDLOf cmd t1 + nDLOf cmd t2 := by
  simp [nDLOf, List.countP_append]

theorem nDLOf_le_nDL (cmd : String) (t : List Ev) : nDLOf cmd t ≤ nDL t := by
  apply List.countP_mono_left
  intro e _ hp
  have he : e = Ev.launch cmd false := by simpa using hp
  subst he
  rfl

theorem round_absent (oracle : Oracle) (cmd : String) :
    ∀ pending : List (String × Nat), pendFor cmd pending = [] →
      nRetryOf cmd (roundEvs oracle pending) = 0 ∧
      pendFor cmd (roundPend oracle pending) = [] := by
  intro pending
  induction pending with
  | nil => intro _; exact ⟨rfl, rfl⟩
  | cons p rest ih =>
    obtain ⟨c, a⟩ := p
    intro hpf
    rw [pendFor_cons] at hpf
    by_cases hc : c = cmd
    · rw [if_pos hc] at hpf
      simp at hpf
    · rw [if_neg hc, List.nil_append] at hpf
      obtain ⟨h1, h2⟩ := ih hpf
      constructor
      · rw [roundEvs_cons, nRetryOf_append, h1]
        by_cases ho : oracle c a <;>
          simp [ho, nRetryOf, List.countP_cons, hc]
      · rw [roundPend_cons, pendFor_append, h2]
        by_cases ho : oracle c a <;> simp [ho, pendFor_cons, hc, pendFor_nil]

theorem round_single_fail (oracle : Oracle) (cmd : String) :
    ∀ (pending : List (String × Nat)) (a : Nat),
      pendFor cmd pending = [(cmd, a)] → oracle cmd a = false →
      nRetryOf cmd (roundEvs oracle pending) = 1 ∧
      pendFor cmd (roundPend oracle pending) = [(cmd, a + 1)] := by
  intro pending
  induction pending with
  | nil => intro a h _; simp [pendFor_nil] at h
  | cons p rest ih =>
    obtain ⟨c, a0⟩ := p
    intro a hpf ho
    rw [pendFor_cons] at hpf
    by_cases hc : c = cmd
    · subst hc
      rw [if_pos rfl, List.singleton_append, List.cons.injEq, Prod.mk.injEq] at hpf
      obtain ⟨⟨_, ha0⟩, hrest⟩ := hpf
      subst ha0
      obtain ⟨h1, h2⟩ := round_absent oracle c rest hrest
      constructor
      · rw [roundEvs_cons, nRetryOf_append, h1, if_neg (by simp [ho])]
        simp [nRetryOf, List.countP_cons]
      · rw [roundPend_cons, pendFor_append, h2, if_neg (by simp [ho])]
        simp [pendFor_cons, pendFor_nil]
    · rw [if_neg hc, List.nil_append] at hpf
      obtain ⟨h1, h2⟩ := ih a hpf ho
      constructor
      · rw [roundEvs_cons, nRetryOf_append, h1]
        by_cases ho2 : oracle c a0 <;>
          simp [ho2, nRetryOf, List.countP_cons, hc]
      · rw [roundPend_cons, pendFor_append, h2]
        by_cases ho2 : oracle c a0 <;> simp [ho2, pendFor_cons, hc, pendFor_nil]

theorem round_single_succ (oracle : Oracle) (cmd : String) :
    ∀ (pending : List (String × Nat)) (a : Nat),
      pendFor cmd pending = [(cmd, a)] → oracle cmd a = true →
      nRetryOf cmd (roundEvs oracle pending) = 0 ∧
      pendFor cmd (roundPend oracle pending) = [] ∧
      Ev.collect cmd true ∈ roundEvs oracle pending := by
  intro pending
  induction pending with
  | nil => intro a h _; simp [pendFor_nil] at h
  | cons p rest ih =>
    obtain ⟨c, a0⟩ := p
    intro a hpf ho
    rw [pendFor_cons] at hpf
    by_cases hc : c = cmd
    · subst hc
      rw [if_pos rfl, List.singleton_append, List.cons.injEq, Prod.mk.injEq] at hpf
      obtain ⟨⟨_, ha0⟩, hrest⟩ := hpf
      subst ha0
      obtain ⟨h1, h2⟩ := round_absent oracle c rest hrest
      refine ⟨?_, ?_, ?_⟩
      · rw [roundEvs_cons, nRetryOf_append, h1, if_pos ho]
        simp [nRetryOf, List.countP_cons]
      · rw [roundPend_cons, pendFor_append, h2, if_pos ho]
        rfl
      · rw [roundEvs_cons, if_pos ho]
        exact List.mem_append_left _ (List.mem_singleton_self _)
    · rw [if_neg hc, List.nil_append] at hpf
      obtain ⟨h1, h2, h3⟩ := ih a hpf ho
      refine ⟨?_, ?_, ?_⟩
      · rw [roundEvs_cons, nRetryOf_append, h1]
        by_cases ho2 : oracle c a0 <;>
          simp [ho2, nRetryOf, List.countP_cons, hc]
      · rw [roundPend_cons, pendFor_append, h2]
        by_cases ho2 : oracle c a0 <;> simp [ho2, pendFor_cons, hc, pendFor_nil]
      · rw [roundEvs_cons]
        exact List.mem_append_right _ h3

theorem collect_absent (oracle : Oracle) (cmd : String) :
    ∀ (fuel : Nat) (pending : List (String × Nat)) (evs : List Ev),
      collectResults oracle fuel pending = some evs → pendFor cmd pending = [] →
      nRetryOf cmd evs = 0 := by
  intro fuel
  induction fuel with
  | zero =>
    intro pending evs h hpf
    cases pending with
    | nil =>
      rw [collectResults_nil, Option.some.injEq] at h
      subst h
      rfl
    | cons p ps => exact absurd h (by simp [collectResults])
  | succ fuel ih =>
    intro pending evs h hpf
    cases pending with
    | nil =>
      rw [collectResults_nil, Option.some.injEq] at h
      subst h
      rfl
    | cons p ps =>
      rw [collectResults_cons] at h
      cases hrec : collectResults oracle fuel (roundPend oracle (p :: ps)) with
      | none => rw [hrec] at h; exact absurd h (by simp)
      | some rest =>
        rw [hrec, Option.some.injEq] at h
        subst h
        obtain ⟨h1, h2⟩ := round_absent oracle cmd (p :: ps) hpf
        rw [nRetryOf_append, h1, ih _ rest hrec h2]

theorem collect_chain (oracle : Oracle) (cmd : String) (n : Nat)
    (hfail : ∀ k, k < n → oracle cmd k = false) (hsucc : oracle cmd n = true) :
    ∀ (fuel : Nat) (pending : List (String × Nat)) (evs : List Ev) (a : Nat),
      collectResults oracle fuel pending = some evs →
      pendFor cmd pending = [(cmd, a)] → a ≤ n →
      nRetryOf cmd evs = n - a ∧ Ev.collect cmd true ∈ evs := by
  intro fuel
  induction fuel with
  | zero =>
    intro pending evs a h hpf _
    cases pending with
    | nil => simp [pendFor_nil] at hpf
    | cons p ps => exact absurd h (by simp [collectResults])
  | succ fuel ih =>
    intro pending evs a h hpf ha
    cases pending with
    | nil => simp [pendFor_nil] at hpf
    | cons p ps =>
      rw [collectResults_cons] at h
      cases hrec : collectResults oracle fuel (roundPend oracle (p :: ps)) with
      | none => rw [hrec] at h; exact absurd h (by simp)
      | some rest =>
        rw [hrec, Option.some.injEq] at h
        subst h
        by_cases ho : oracle cmd a = true
        · have han : a = n := by
            by_contra hne
            have hlt : a < n := by omega
            rw [hfail a hlt] at ho
            exact absurd ho (by simp)
          subst han
          obtain ⟨h1, h2, h3⟩ := round_single_succ oracle cmd (p :: ps) a hpf ho
          have h4 := collect_absent oracle cmd fuel _ rest hrec h2
          refine ⟨?_, List.mem_append_left _ h3⟩
          rw [nRetryOf_append, h1, h4]
          omega
        · have hao : oracle cmd a = false := by
            revert ho
            cases oracle cmd a <;> simp
          have hlt : a < n := by
            by_contra hge
            have han : a = n := by omega
            rw [han, hsucc] at hao
            exact absurd hao (by simp)
          obtain ⟨h1, h2⟩ := round_single_fail oracle cmd (p :: ps) a hpf hao
          obtain ⟨h3, h4⟩ := ih _ rest (a + 1) hrec h2 (by omega)
          refine ⟨?_, List.mem_append_right _ h4⟩
          rw [nRetryOf_append, h1, h3]
          omega

theorem collect_nDLOf (oracle : Oracle) (cmd : String) (fuel : Nat)
    (pending : List (String × Nat)) (evs : List Ev)
    (h : collectResults oracle fuel pending = some evs) : nDLOf cmd evs = 0 := by
  have h1 := (@collectResults_spec 0 oracle fuel pending evs h).1
  have h2 := nDLOf_le_nDL cmd evs
  omega

theorem nRetryOf_cons_launchF (cmd c0 : String) (t : List Ev) :
    nRetryOf cmd (Ev.launch c0 false :: t) = nRetryOf cmd t := by
  simp [nRetryOf, List.countP_cons]

theorem nDLOf_cons_launchF (cmd c0 : String) (t : List Ev) :
    nDLOf cmd (Ev.launch c0 false :: t) =
      nDLOf cmd t + (if c0 = cmd then 1 else 0) := by
  by_cases h : c0 = cmd <;> simp [nDLOf, List.countP_cons, h]

theorem dispatch_chain_absent (oracle : Oracle) (conc : Int) (cmd : String) :
    ∀ (cmds : List String) (fuel : Nat) (crs : List (String × Nat)) (p : Nat)
      (evs : List Ev),
      dispatch oracle fuel conc cmds crs p = some evs →
      cmd ∉ cmds → pendFor cmd crs = [] →
      nRetryOf cmd evs = 0 ∧ nDLOf cmd evs = 0 := by
  intro cmds
  induction cmds with
  | nil =>
    intro fuel crs p evs h _ hpf
    rw [dispatch_nil] at h
    exact ⟨collect_absent oracle cmd fuel crs evs h hpf,
      collect_nDLOf oracle cmd fuel crs evs h⟩
  | cons c0 rest ih =>
    intro fuel crs p evs h hnm hpf
    have hc0 : ¬ c0 = cmd := by
      intro he
      exact hnm (he ▸ List.mem_cons_self c0 rest)
    have hnm2 : cmd ∉ rest := fun hm => hnm (List.mem_cons_of_mem _ hm)
    have hpf2 : pendFor cmd (crs ++ [(c0, 0)]) = [] := by
      rw [pendFor_append, hpf, pendFor_cons, if_neg hc0, pendFor_nil]
      rfl
    rw [dispatch_cons] at h
    by_cases hfull : ((p + 1 : Nat) : Int) = conc
    · rw [if_pos hfull] at h
      cases h1 : collectResults oracle fuel (crs ++ [(c0, 0)]) with
      | none => rw [h1] at h; exact absurd h (by simp)
      | some evs1 =>
        rw [h1] at h
        cases h2 : dispatch oracle fuel conc rest [] 0 with
        | none => rw [h2] at h; exact absurd h (by simp)
        | some evs2 =>
          rw [h2, Option.some.injEq] at h
          subst h
          obtain ⟨hr2, hd2⟩ := ih fuel [] 0 evs2 h2 hnm2 (pendFor_nil cmd)
          have hr1 := collect_absent oracle cmd fuel _ evs1 h1 hpf2
          have hd1 := collect_nDLOf oracle cmd fuel _ evs1 h1
          constructor
          · rw [nRetryOf_cons_launchF, nRetryOf_append, hr1, hr2]
          · rw [nDLOf_cons_launchF, nDLOf_append, hd1, hd2, if_neg hc0]
    · rw [if_neg hfull] at h
      cases h2 : dispatch oracle fuel conc rest (crs ++ [(c0, 0)]) (p + 1) with
      | none => rw [h2] at h; exact absurd h (by simp)
      | some evs2 =>
        rw [h2, Option.some.injEq] at h
        subst h
        obtain ⟨hr2, hd2⟩ := ih fuel (crs ++ [(c0, 0)]) (p + 1) evs2 h2 hnm2 hpf2
        constructor
        · rw [nRetryOf_cons_launchF, hr2]
        · rw [nDLOf_cons_launchF, hd2, if_neg hc0]

theorem dispatch_chain_pending (oracle : Oracle) (conc : Int) (cmd : String)
    (n : Nat) (hfail : ∀ k, k < n → oracle cmd k = false)
    (hsucc : oracle cmd n = true) :
    ∀ (cmds : List String) (fuel : Nat) (crs : List (String × Nat)) (p : Nat)
      (evs : List Ev),
      dispatch oracle fuel conc cmds crs p = some evs →
      cmd ∉ cmds → pendFor cmd crs = [(cmd, 0)] →
      nRetryOf cmd evs = n ∧ nDLOf cmd evs = 0 ∧ Ev.collect cmd true ∈ evs := by
  intro cmds
  induction cmds with
  | nil =>
    intro fuel crs p evs h _ hpf
    rw [dispatch_nil] at h
    obtain ⟨h1, h2⟩ := collect_chain oracle cmd n hfail hsucc fuel crs evs 0 h hpf
      (by omega)
    exact ⟨by omega, collect_nDLOf oracle cmd fuel crs evs h, h2⟩
  | cons c0 rest ih =>
    intro fuel crs p evs h hnm hpf
    have hc0 : ¬ c0 = cmd := by
      intro he
      exact hnm (he ▸ List.mem_cons_self c0 rest)
    have hnm2 : cmd ∉ rest := fun hm => hnm (List.mem_cons_of_mem _ hm)
    have hpf2 : pendFor cmd (crs ++ [(c0, 0)]) = [(cmd, 0)] := by
      rw [pendFor_append, hpf, pendFor_cons, if_neg hc0, pendFor_nil]
      rfl
    rw [dispatch_cons] at h
    by_cases hfull : ((p + 1 : Nat) : Int) = conc
    · rw [if_pos hfull] at h
      cases h1 : collectResults oracle fuel (crs ++ [(c0, 0)]) with
      | none => rw [h1] at h; exact absurd h (by simp)
      | some evs1 =>
        rw [h1] at h
        cases h2 : dispatch oracle fuel conc rest [] 0 with
        | none => rw [h2] at h; exact absurd h (by simp)
        | some evs2 =>
          rw [h2, Option.some.injEq] at h
          subst h
          obtain ⟨hc1, hm1⟩ := collect_chain oracle cmd n hfail hsucc fuel _ evs1 0
            h1 hpf2 (by omega)
          obtain ⟨hr2, hd2⟩ := dispatch_chain_absent oracle conc cmd rest fuel [] 0
            evs2 h2 hnm2 (pendFor_nil cmd)
          have hd1 := collect_nDLOf oracle cmd fuel _ evs1 h1
          refine ⟨?_, ?_, ?_⟩
          · rw [nRetryOf_cons_launchF, nRetryOf_append, hc1, hr2]
            omega
          · rw [nDLOf_cons_launchF, nDLOf_append, hd1, hd2, if_neg hc0]
          · exact List.mem_cons_of_mem _ (List.mem_append_left _ hm1)
    · rw [if_neg hfull] at h
      cases h2 : dispatch oracle fuel conc rest (crs ++ [(c0, 0)]) (p + 1) with
      | none => rw [h2] at h; exact absurd h (by simp)
      | some evs2 =>
        rw [h2, Option.some.injEq] at h
        subst h
        obtain ⟨hr2, hd2, hm2⟩ := ih fuel (crs ++ [(c0, 0)]) (p + 1) evs2 h2 hnm2 hpf2
        refine ⟨?_, ?_, List.mem_cons_of_mem _ hm2⟩
        · rw [nRetryOf_cons_launchF, hr2]
        · rw [nDLOf_cons_launchF, hd2, if_neg hc0]

theorem dispatch_chain_future (oracle : Oracle) (conc : Int) (cmd : String)
    (n : Nat) (hfail : ∀ k, k < n → oracle cmd k = false)
    (hsucc : oracle cmd n = true) :
    ∀ (cmds : List String) (fuel : Nat) (crs : List (String × Nat)) (p : Nat)
      (evs : List Ev),
      dispatch oracle fuel conc cmds crs p = some evs →
      cmd ∈ cmds → cmds.Nodup → pendFor cmd crs = [] →
      nRetryOf cmd evs = n ∧ nDLOf cmd evs = 1 ∧ Ev.collect cmd true ∈ evs := by
  intro cmds
  induction cmds with
  | nil =>
    intro fuel crs p evs h hmem _ _
    simp at hmem
  | cons c0 rest ih =>
    intro fuel crs p evs h hmem hnd hpf
    rw [List.nodup_cons] at hnd
    obtain ⟨hc0nr, hndr⟩ := hnd
    rw [dispatch_cons] at h
    rcases List.mem_cons.mp hmem with he | hmem2
    · -- the head command is cmd itself
      subst he
      have hpf2 : pendFor cmd (crs ++ [(cmd, 0)]) = [(cmd, 0)] := by
        rw [pendFor_append, hpf, pendFor_cons, if_pos rfl, pendFor_nil]
        rfl
      by_cases hfull : ((p + 1 : Nat) : Int) = conc
      · rw [if_pos hfull] at h
        cases h1 : collectResults oracle fuel (crs ++ [(cmd, 0)]) with
        | none => rw [h1] at h; exact absurd h (by simp)
        | some evs1 =>
          rw [h1] at h
          cases h2 : dispatch oracle fuel conc rest [] 0 with
          | none => rw [h2] at h; exact absurd h (by simp)
          | some evs2 =>
            rw [h2, Option.some.injEq] at h
            subst h
            obtain ⟨hc1, hm1⟩ := collect_chain oracle cmd n hfail hsucc fuel _ evs1
              0 h1 hpf2 (by omega)
            obtain ⟨hr2, hd2⟩ := dispatch_chain_absent oracle conc cmd rest fuel []
              0 evs2 h2 hc0nr (pendFor_nil cmd)
            have hd1 := collect_nDLOf oracle cmd fuel _ evs1 h1
            refine ⟨?_, ?_, ?_⟩
            · rw [nRetryOf_cons_launchF, nRetryOf_append, hc1, hr2]
              omega
            · rw [nDLOf_cons_launchF, nDLOf_append, hd1, hd2, if_pos rfl]
            · exact List.mem_cons_of_mem _ (List.mem_append_left _ hm1)
      · rw [if_neg hfull] at h
        cases h2 : dispatch oracle fuel conc rest (crs ++ [(cmd, 0)]) (p + 1) with
        | none => rw [h2] at h; exact absurd h (by simp)
        | some evs2 =>
          rw [h2, Option.some.injEq] at h
          subst h
          obtain ⟨hr2, hd2, hm2⟩ := dispatch_chain_pending oracle conc cmd n hfail
            hsucc rest fuel (crs ++ [(cmd, 0)]) (p + 1) evs2 h2 hc0nr hpf2
          refine ⟨?_, ?_, List.mem_cons_of_mem _ hm2⟩
          · rw [nRetryOf_cons_launchF, hr2]
          · rw [nDLOf_cons_launchF, hd2, if_pos rfl]
    · -- cmd occurs further down the list
      have hc0 : ¬ c0 = cmd := by
        intro he
        exact hc0nr (he ▸ hmem2)
      have hpf2 : pendFor cmd (crs ++ [(c0, 0)]) = [] := by
        rw [pendFor_append, hpf, pendFor_cons, if_neg hc0, pendFor_nil]
        rfl
      by_cases hfull : ((p + 1 : Nat) : Int) = conc
      · rw [if_pos hfull] at h
        cases h1 : collectResults oracle fuel (crs ++ [(c0, 0)]) with
        | none => rw [h1] at h; exact absurd h (by simp)
        | some evs1 =>
          rw [h1] at h
          cases h2 : dispatch oracle fuel conc rest [] 0 with
          | none => rw [h2] at h; exact absurd h (by simp)
          | some evs2 =>
            rw [h2, Option.some.injEq] at h
            subst h
            have hr1 := collect_absent oracle cmd fuel _ evs1 h1 hpf2
            have hd1 := collect_nDLOf oracle cmd fuel _ evs1 h1
            obtain ⟨hr2, hd2, hm2⟩ := ih fuel [] 0 evs2 h2 hmem2 hndr
              (pendFor_nil cmd)
            refine ⟨?_, ?_, ?_⟩
            · rw [nRetryOf_cons_launchF, nRetryOf_append, hr1, hr2]
              omega
            · rw [nDLOf_cons_launchF, nDLOf_append, hd1, hd2, if_neg hc0]
            · exact List.mem_cons_of_mem _ (List.mem_append_right _ hm2)
      · rw [if_neg hfull] at h
        cases h2 : dispatch oracle fuel conc rest (crs ++ [(c0, 0)]) (p + 1) with
        | none => rw [h2] at h; exact absurd h (by simp)
        | some evs2 =>
          rw [h2, Option.some.injEq] at h
          subst h
          obtain ⟨hr2, hd2, hm2⟩ := ih fuel (crs ++ [(c0, 0)]) (p + 1) evs2 h2
            hmem2 hndr hpf2
          refine ⟨?_, ?_, List.mem_cons_of_mem _ hm2⟩
          · rw [nRetryOf_cons_launchF, hr2]
          · rw [nDLOf_cons_launchF, hd2, if_neg hc0]

/-! ### Every launched operation is eventually collected successfully -/

theorem roundEvs_mem_succ (oracle : Oracle) :
    ∀ (pending : List (String × Nat)) (c : String) (a : Nat),
      (c, a) ∈ pending → oracle c a = true →
      Ev.collect c true ∈ roundEvs oracle pending := by
  intro pending
  induction pending with
  | nil => intro c a h _; simp at h
  | cons p rest ih =>
    obtain ⟨c0, a0⟩ := p
    intro c a hmem ho
    rw [roundEvs_cons]
    rcases List.mem_cons.mp hmem with he | hmem2
    · obtain ⟨he1, he2⟩ := Prod.mk.inj he
      subst he1
      subst he2
      rw [if_pos ho]
      exact List.mem_append_left _ (List.mem_singleton_self _)
    · exact List.mem_append_right _ (ih c a hmem2 ho)

theorem roundPend_mem_fail (oracle : Oracle) :
    ∀ (pending : List (String × Nat)) (c : String) (a : Nat),
      (c, a) ∈ pending → oracle c a = false →
      (c, a + 1) ∈ roundPend oracle pending := by
  intro pending
  induction pending with
  | nil => intro c a h _; simp at h
  | cons p rest ih =>
    obtain ⟨c0, a0⟩ := p
    intro c a hmem ho
    rw [roundPend_cons]
    rcases List.mem_cons.mp hmem with he | hmem2
    · obtain ⟨he1, he2⟩ := Prod.mk.inj he
      subst he1
      subst he2
      rw [if_neg (by simp [ho])]
      exact List.mem_append_left _ (List.mem_singleton_self _)
    · exact List.mem_append_right _ (ih c a hmem2 ho)

theorem collect_mem_true (oracle : Oracle) :
    ∀ (fuel : Nat) (pending : List (String × Nat)) (evs : List Ev),
      collectResults oracle fuel pending = some evs →
      ∀ (c : String) (a : Nat), (c, a) ∈ pending → Ev.collect c true ∈ evs := by
  intro fuel
  induction fuel with
  | zero =>
    intro pending evs h c a hmem
    cases pending with
    | nil => simp at hmem
    | cons p ps => exact absurd h (by simp [collectResults])
  | succ fuel ih =>
    intro pending evs h c a hmem
    cases pending with
    | nil => simp at hmem
    | cons p ps =>
      rw [collectResults_cons] at h
      cases hrec : collectResults oracle fuel (roundPend oracle (p :: ps)) with
      | none => rw [hrec] at h; exact absurd h (by simp)
      | some rest =>
        rw [hrec, Option.some.injEq] at h
        subst h
        by_cases ho : oracle c a = true
        · exact List.mem_append_left _ (roundEvs_mem_succ oracle (p :: ps) c a hmem ho)
        · have hof : oracle c a = false := by
            revert ho
            cases oracle c a <;> simp
          have hm2 := roundPend_mem_fail oracle (p :: ps) c a hmem hof
          exact List.mem_append_right _ (ih _ rest hrec c (a + 1) hm2)

theorem roundEvs_launch_inv (oracle : Oracle) :
    ∀ (pending : List (String × Nat)) (c : String) (rf : Bool),
      Ev.launch c rf ∈ roundEvs oracle pending →
      ∃ a, (c, a) ∈ pending ∧ oracle c a = false := by
  intro pending
  induction pending with
  | nil => intro c rf h; simp [roundEvs] at h
  | cons p rest ih =>
    obtain ⟨c0, a0⟩ := p
    intro c rf hmem
    rw [roundEvs_cons] at hmem
    rcases List.mem_append.mp hmem with hh | hr
    · by_cases ho : oracle c0 a0
      · rw [if_pos ho] at hh
        simp at hh
      · rw [if_neg ho] at hh
        have hof : oracle c0 a0 = false := by
          revert ho
          cases oracle c0 a0 <;> simp
        rcases List.mem_cons.mp hh with he | hh2
        · exact absurd he (by simp)
        · rcases List.mem_cons.mp hh2 with he | hh3
          · obtain ⟨he1, _⟩ := Ev.launch.inj he
            subst he1
            exact ⟨a0, List.mem_cons_self _ _, hof⟩
          · simp at hh3
    · obtain ⟨a, hm, hof⟩ := ih c rf hr
      exact ⟨a, List.mem_cons_of_mem _ hm, hof⟩

theorem collect_launch_collects (oracle : Oracle) :
    ∀ (fuel : Nat) (pending : List (String × Nat)) (evs : List Ev),
      collectResults oracle fuel pending = some evs →
      ∀ (c : String) (rf : Bool), Ev.launch c rf ∈ evs →
        Ev.collect c true ∈ evs := by
  intro fuel
  induction fuel with
  | zero =>
    intro pending evs h c rf hmem
    cases pending with
    | nil =>
      rw [collectResults_nil, Option.some.injEq] at h
      subst h
      simp at hmem
    | cons p ps => exact absurd h (by simp [collectResults])
  | succ fuel ih =>
    intro pending evs h c rf hmem
    cases pending with
    | nil =>
      rw [collectResults_nil, Option.some.injEq] at h
      subst h
      simp at hmem
    | cons p ps =>
      rw [collectResults_cons] at h
      cases hrec : collectResults oracle fuel (roundPend oracle (p :: ps)) with
      | none => rw [hrec] at h; exact absurd h (by simp)
      | some rest =>
        rw [hrec, Option.some.injEq] at h
        subst h
        rcases List.mem_append.mp hmem with hh | hr
        · obtain ⟨a, hm, hof⟩ := roundEvs_launch_inv oracle (p :: ps) c rf hh
          have hm2 := roundPend_mem_fail oracle (p :: ps) c a hm hof
          exact List.mem_append_right _ (collect_mem_true oracle fuel _ rest hrec c
            (a + 1) hm2)
        · exact List.mem_append_right _ (ih _ rest hrec c rf hr)

theorem dispatch_all_collected (oracle : Oracle) (conc : Int) :
    ∀ (cmds : List String) (fuel : Nat) (crs : List (String × Nat)) (p : Nat)
      (evs : List Ev),
      dispatch oracle fuel conc cmds crs p = some evs →
      (∀ pr ∈ crs, Ev.collect pr.1 true ∈ evs) ∧
      (∀ (c : String) (rf : Bool), Ev.launch c rf ∈ evs →
        Ev.collect c true ∈ evs) := by
  intro cmds
  induction cmds with
  | nil =>
    intro fuel crs p evs h
    rw [dispatch_nil] at h
    constructor
    · intro pr hpr
      obtain ⟨c, a⟩ := pr
      exact collect_mem_true oracle fuel crs evs h c a hpr
    · exact collect_launch_collects oracle fuel crs evs h
  | cons c0 rest ih =>
    intro fuel crs p evs h
    rw [dispatch_cons] at h
    by_cases hfull : ((p + 1 : Nat) : Int) = conc
    · rw [if_pos hfull] at h
      cases h1 : collectResults oracle fuel (crs ++ [(c0, 0)]) with
      | none => rw [h1] at h; exact absurd h (by simp)
      | some evs1 =>
        rw [h1] at h
        cases h2 : dispatch oracle fuel conc rest [] 0 with
        | none => rw [h2] at h; exact absurd h (by simp)
        | some evs2 =>
          rw [h2, Option.some.injEq] at h
          subst h
          have hbatch : ∀ pr ∈ crs ++ [(c0, 0)], Ev.collect pr.1 true ∈ evs1 := by
            intro pr hpr
            obtain ⟨c, a⟩ := pr
            exact collect_mem_true oracle fuel _ evs1 h1 c a hpr
          constructor
          · intro pr hpr
            exact List.mem_cons_of_mem _
              (List.mem_append_left _ (hbatch pr (List.mem_append_left _ hpr)))
          · intro c rf hmem
            rcases List.mem_cons.mp hmem with he | hmem2
            · obtain ⟨he1, _⟩ := Ev.launch.inj he
              subst he1
              refine List.mem_cons_of_mem _ (List.mem_append_left _ ?_)
              exact hbatch (c, 0)
                (List.mem_append_right _ (List.mem_singleton_self _))
            · rcases List.mem_append.mp hmem2 with h1m | h2m
              · exact List.mem_cons_of_mem _ (List.mem_append_left _
                  (collect_launch_collects oracle fuel _ evs1 h1 c rf h1m))
              · exact List.mem_cons_of_mem _ (List.mem_append_right _
                  ((ih fuel [] 0 evs2 h2).2 c rf h2m))
    · rw [if_neg hfull] at h
      cases h2 : dispatch oracle fuel conc rest (crs ++ [(c0, 0)]) (p + 1) with
      | none => rw [h2] at h; exact absurd h (by simp)
      | some evs2 =>
        rw [h2, Option.some.injEq] at h
        subst h
        obtain ⟨hall, hlaunch⟩ := ih fuel (crs ++ [(c0, 0)]) (p + 1) evs2 h2
        constructor
        · intro pr hpr
          exact List.mem_cons_of_mem _ (hall pr (List.mem_append_left _ hpr))
        · intro c rf hmem
          rcases List.mem_cons.mp hmem with he | hmem2
          · obtain ⟨he1, _⟩ := Ev.launch.inj he
            subst he1
            exact List.mem_cons_of_mem _ (hall (c, 0)
              (List.mem_append_right _ (List.mem_singleton_self _)))
          · exact List.mem_cons_of_mem _ (hlaunch c rf hmem2)

/-- Claim C8: if an operation's external process fails on attempts 0..n-1
  and succeeds on attempt n, the executor retries it exactly n times, each
  retry relaunching the identical command string; the operation's
  dispatch-level launch happens exactly once, a successful collection of
  that same command appears in the trace, and the dispatch loop terminates
  normally (the failures are absorbed, never surfaced).  Consequently,
  whenever repair returns successfully, every launched sub-range operation
  of every owned range has a successful collection in its range trace. -/
theorem C8_retry_exactness :
    (∀ (oracle : Oracle) (conc : Int) (fuel : Nat) (cmds : List String)
      (cmd : String) (n : Nat) (trace : List Ev),
      cmds.Nodup → cmd ∈ cmds →
      (∀ k, k < n → oracle cmd k = false) → oracle cmd n = true →
      dispatch oracle fuel conc cmds [] 0 = some trace →
      nRetryOf cmd trace = n ∧ nDLOf cmd trace = 1 ∧
        Ev.collect cmd true ∈ trace) ∧
    (∀ (env : Env) (ks : String) (cf host nt : Option String)
      (steps conc : Int) (dcs : Bool) (fuel : Nat) (b : Bool)
      (evss : List (List Ev)),
      repair env ks cf host steps conc dcs nt fuel = some (b, evss) →
      ∀ tr ∈ evss, ∀ (c : String) (rf : Bool),
        Ev.launch c rf ∈ tr → Ev.collect c true ∈ tr) := by
  constructor
  · intro oracle conc fuel cmds cmd n trace hnd hmem hfail hsucc hd
    exact dispatch_chain_future oracle conc cmd n hfail hsucc cmds fuel [] 0
      trace hd hmem hnd (pendFor_nil cmd)
  · intro env ks cf host nt steps conc dcs fuel b evss h tr htr c rf hl
    obtain ⟨cmds2, hd2⟩ := repair_traces env ks cf host nt steps conc dcs fuel b
      evss h tr htr
    exact (dispatch_all_collected env.oracle conc cmds2 fuel [] 0 tr hd2).2 c rf hl

theorem C8_retry_exactness_witness :
    (nRetryOf "r1"
        [Ev.launch "r1" false, Ev.collect "r1" false, Ev.launch "r1" true,
          Ev.collect "r1" false, Ev.launch "r1" true, Ev.collect "r1" true] = 2 ∧
      nDLOf "r1"
        [Ev.launch "r1" false, Ev.collect "r1" false, Ev.launch "r1" true,
          Ev.collect "r1" false, Ev.launch "r1" true, Ev.collect "r1" true] = 1 ∧
      Ev.collect "r1" true ∈
        [Ev.launch "r1" false, Ev.collect "r1" false, Ev.launch "r1" true,
          Ev.collect "r1" false, Ev.launch "r1" true, Ev.collect "r1" true]) ∧
    (∀ tr ∈
        ([[Ev.launch (repair_range_cmd none none "ks" none false
            (format_murmur (-5)) (format_murmur (-5))) false,
          Ev.collect (repair_range_cmd none none "ks" none false
            (format_murmur (-5)) (format_murmur (-5))) true]] : List (List Ev)),
      ∀ (c : String) (rf : Bool), Ev.launch c rf ∈ tr →
        Ev.collect c true ∈ tr) :=
  ⟨C8_retry_exactness.1 (fun _ k => decide (2 ≤ k)) 1 3 ["r1"] "r1" 2
      [Ev.launch "r1" false, Ev.collect "r1" false, Ev.launch "r1" true,
        Ev.collect "r1" false, Ev.launch "r1" true, Ev.collect "r1" true]
      (by decide) (by decide)
      (by intro k hk; interval_cases k <;> rfl) (by rfl) (by rfl),
   C8_retry_exactness.2
      { ringCmdOk := true,
        ringLines := ["", "", "", "", "", "", "a b c Up e f g -5"],
        hostCmdOk := true,
        hostLines := ["Token: x -5"],
        oracle := fun _ _ => true }
      "ks" none none none 100 1 false 1 true
      [[Ev.launch (repair_range_cmd none none "ks" none false
          (format_murmur (-5)) (format_murmur (-5))) false,
        Ev.collect (repair_range_cmd none none "ks" none false
          (format_murmur (-5)) (format_murmur (-5))) true]]
      (by rfl)⟩

/-! ### Exit codes and the discovery-failure abort -/

/-- Claim C7: a missing (falsy) keyspace exits with code 1 regardless of the
  environment, before repair runs; if the ring listing command exits
  non-zero, or if the ring discovery step completes and the owned-token
  listing lacks the "Token" marker, then repair returns failure with an
  empty trace list (no sub-range operation dispatched) and, when a keyspace
  was supplied, the process exits with code 2; and the process exits 0 only
  when repair returned True (every owned range fully repaired). -/
theorem C7_exit_codes (env : Env) (opts : Options) (fuel : Nat) :
    (strTruthy opts.keyspace = false → main opts env fuel = some 1) ∧
    (env.ringCmdOk = false →
      runRepair opts env fuel = some (false, []) ∧
      (strTruthy opts.keyspace = true → main opts env fuel = some 2)) ∧
    (∀ (rb : Bool) (rt : List Int),
      get_ring_tokens env.ringCmdOk env.ringLines = some (rb, rt) →
      hasTokenMarker env.hostLines = false →
      runRepair opts env fuel = some (false, []) ∧
      (strTruthy opts.keyspace = true → main opts env fuel = some 2)) ∧
    (main opts env fuel = some 0 →
      ∃ evss, runRepair opts env fuel = some (true, evss)) := by
  refine ⟨?_, ?_, ?_, ?_⟩
  · intro h
    simp [main, h]
  · intro hring
    have hg : get_ring_tokens env.ringCmdOk env.ringLines = some (false, []) := by
      rw [hring]
      rfl
    have hrr : runRepair opts env fuel = some (false, []) := by
      unfold runRepair repair
      rw [hg]
    exact ⟨hrr, fun hk => by simp [main, hk, hrr]⟩
  · intro rb rt hg hmark
    have hh : get_host_tokens env.hostCmdOk env.hostLines = some (false, []) := by
      unfold get_host_tokens
      rw [hmark]
      simp
    have hrr : runRepair opts env fuel = some (false, []) := by
      unfold runRepair repair
      rw [hg]
      cases rb with
      | false => rfl
      | true =>
        dsimp only
        rw [hh]
    exact ⟨hrr, fun hk => by simp [main, hk, hrr]⟩
  · intro h0
    cases hstr : strTruthy opts.keyspace with
    | false => simp [main, hstr] at h0
    | true =>
      rw [main, hstr] at h0
      simp only [Bool.not_true, Bool.false_eq_true, if_false] at h0
      cases hr : runRepair opts env fuel with
      | none => rw [hr] at h0; exact absurd h0 (by simp)
      | some pr =>
        obtain ⟨b, evss⟩ := pr
        rw [hr] at h0
        cases b with
        | false => exact absurd h0 (by simp)
        | true => exact ⟨evss, rfl⟩

theorem C7_exit_codes_witness :
    main
      { keyspace := none, cf := none, host := none, steps := 100,
        nodetool := none, repair_concurrency := 10, all_dcs := false }
      { ringCmdOk := false, ringLines := [], hostCmdOk := true,
        hostLines := [], oracle := fun _ _ => true } 1 = some 1 ∧
    (runRepair
      { keyspace := some "ks", cf := none, host := none, steps := 100,
        nodetool := none, repair_concurrency := 10, all_dcs := false }
      { ringCmdOk := false, ringLines := [], hostCmdOk := true,
        hostLines := [], oracle := fun _ _ => true } 1 = some (false, []) ∧
      main
        { keyspace := some "ks", cf := none, host := none, steps := 100,
          nodetool := none, repair_concurrency := 10, all_dcs := false }
        { ringCmdOk := false, ringLines := [], hostCmdOk := true,
          hostLines := [], oracle := fun _ _ => true } 1 = some 2) ∧
    (runRepair
      { keyspace := some "ks", cf := none, host := none, steps := 100,
        nodetool := none, repair_concurrency := 10, all_dcs := false }
      { ringCmdOk := true,
        ringLines := ["", "", "", "", "", "", "a b c Up e f g -5"],
        hostCmdOk := true, hostLines := ["nothing here"],
        oracle := fun _ _ => true } 1 = some (false, []) ∧
      main
        { keyspace := some "ks", cf := none, host := none, steps := 100,
          nodetool := none, repair_concurrency := 10, all_dcs := false }
        { ringCmdOk := true,
          ringLines := ["", "", "", "", "", "", "a b c Up e f g -5"],
          hostCmdOk := true, hostLines := ["nothing here"],
          oracle := fun _ _ => true } 1 = some 2) ∧
    (∃ evss, runRepair
      { keyspace := some "ks", cf := none, host := none, steps := 100,
        nodetool := none, repair_concurrency := 10, all_dcs := false }
      { ringCmdOk := true,
        ringLines := ["", "", "", "", "", "", "a b c Up e f g -5"],
        hostCmdOk := true, hostLines := ["Token: x -5"],
        oracle := fun _ _ => true } 1 = some (true, evss)) := by
  refine ⟨?_, ?_, ?_, ?_⟩
  · exact (C7_exit_codes
      { ringCmdOk := false, ringLines := [], hostCmdOk := true,
        hostLines := [], oracle := fun _ _ => true }
      { keyspace := none, cf := none, host := none, steps := 100,
        nodetool := none, repair_concurrency := 10, all_dcs := false } 1).1 rfl
  · have h := (C7_exit_codes
      { ringCmdOk := false, ringLines := [], hostCmdOk := true,
        hostLines := [], oracle := fun _ _ => true }
      { keyspace := some "ks", cf := none, host := none, steps := 100,
        nodetool := none, repair_concurrency := 10, all_dcs := false } 1).2.1 rfl
    exact ⟨h.1, h.2 rfl⟩
  · have h := (C7_exit_codes
      { ringCmdOk := true,
        ringLines := ["", "", "", "", "", "", "a b c Up e f g -5"],
        hostCmdOk := true, hostLines := ["nothing here"],
        oracle := fun _ _ => true }
      { keyspace := some "ks", cf := none, host := none, steps := 100,
        nodetool := none, repair_concurrency := 10, all_dcs := false } 1).2.2.1
      true [-5] (by rfl) (by rfl)
    exact ⟨h.1, h.2 rfl⟩
  · exact (C7_exit_codes
      { ringCmdOk := true,
        ringLines := ["", "", "", "", "", "", "a b c Up e f g -5"],
        hostCmdOk := true, hostLines := ["Token: x -5"],
        oracle := fun _ _ => true }
      { keyspace := some "ks", cf := none, host := none, steps := 100,
        nodetool := none, repair_concurrency := 10, all_dcs := false } 1).2.2.2
      (by rfl)

end RangeRepair
